import Mathlib

/-!
# lemuria: the diff engine (`pkg/diff`) and the chart renderer (`pkg/helmrender`)

A shallow embedding of the Go packages `diff` and `helmrender` and theorems about them.

Modelling conventions.

* A Go `string` is a Lean `String`.  The inputs are UTF-8 text, on which byte
  equality, splitting on an ASCII separator, trimming white space and cutting a
  one-byte suffix coincide with the same operations on the list of characters.
* A Go `[]string` is a `List String`; `xs[i]` is `xs.get ⟨i, h⟩`, where `h` is the
  bound established by the guard the access sits under; `xs[i:]` is `xs.drop i`.
* The Go `int` cursors never exceed the lengths of the slices, so they are `Nat`.
* A Go result `(*T, error)` is a pair `Option T × Option error` (`none` is `nil`).
* The `for` loop of `computeDiff` is a step function on the loop state, iterated
  by structural recursion on a bound; the bound handed to it is
  `len(oldLines) + len(newLines)`, and `computeDiff_loop_exits` shows that the loop
  condition is false in the state reached, so the loop really has ended there.
* A Go `map[string]interface{}` is the list of its entries.  Go maps hold a key at
  most once and are ranged over in an unspecified order; the theorems about maps
  assume the keys distinct and describe the result key by key, which does not depend
  on the order of the entries.
* The file system, the YAML decoder and Helm are the fields of an environment `Env`
  the functions of `helmrender` take as a parameter.
-/

/-! ## The Go standard library functions the package calls -/

namespace strings

/-- Scanner of `strings.Split` for a non-empty separator: `skip` counts the
characters of an already matched separator that are still to be passed over and
`acc` holds, reversed, the characters of the piece being read.  A separator is
recognised at the leftmost position where it occurs, and matches do not overlap. -/
def splitAux (sep : List Char) : List Char → Nat → List Char → List (List Char)
  | [], _, acc => [acc.reverse]
  | _ :: cs, skip + 1, acc => splitAux sep cs skip acc
  | c :: cs, 0, acc =>
    if sep <+: c :: cs then acc.reverse :: splitAux sep cs (sep.length - 1) []
    else splitAux sep cs 0 (c :: acc)

/-- Go `strings.Split(s, sep)`: the substrings of `s` between the occurrences of
`sep`.  With an empty separator Go splits after each UTF-8 sequence. -/
def Split (s sep : String) : List String :=
  if sep.data = [] then s.data.map String.singleton
  else (splitAux sep.data s.data 0 []).map String.mk

/-- Go `strings.HasSuffix(s, suffix)`. -/
def HasSuffix (s suffix : String) : Bool :=
  decide (suffix.data <:+ s.data)

/-- Go `strings.TrimSuffix(s, suffix)`: `s` without the given trailing suffix, and
`s` itself when it does not end with `suffix`. -/
def TrimSuffix (s suffix : String) : String :=
  if HasSuffix s suffix then ⟨s.data.take (s.data.length - suffix.data.length)⟩ else s

/-- Go `unicode.IsSpace`: the white space characters of Unicode. -/
def isSpace (c : Char) : Bool :=
  c = '\t' || c = '\n' || c.val = 0x0B || c.val = 0x0C || c = '\r' || c = ' ' ||
  c.val = 0x85 || c.val = 0xA0 || c.val = 0x1680 || (0x2000 ≤ c.val && c.val ≤ 0x200A) ||
  c.val = 0x2028 || c.val = 0x2029 || c.val = 0x202F || c.val = 0x205F || c.val = 0x3000

/-- Go `strings.TrimSpace(s)`: `s` without its leading and trailing white space. -/
def TrimSpace (s : String) : String :=
  ⟨(s.data.dropWhile isSpace).rdropWhile isSpace⟩

/-- Go `strings.Join(elems, sep)`. -/
def Join (elems : List String) (sep : String) : String :=
  ⟨List.intercalate sep.data (elems.map String.data)⟩

end strings

/-- A Go `error` value, represented by its message. -/
structure error where
  message : String
  deriving DecidableEq, Repr

/-- The verb `%d` of `fmt.Sprintf` on a non-negative `int`: its decimal digits. -/
def fmtInt (n : Nat) : String := toString n

/-! ## Package `diff` -/

namespace diff

/-- The struct `DiffResult`. -/
structure DiffResult where
  differences : Bool
  output : String
  deriving DecidableEq, Repr

/-- The struct `diffLine`: `op` is `' '` for context, `'-'` for deletion and `'+'`
for addition. -/
structure diffLine where
  text : String
  op : Char
  deriving DecidableEq, Repr

/-- The `range` loop of `findLineInSlice`, `i` being the index of the head of the
part of the slice not yet visited. -/
def findLineInSliceFrom (line : String) : List String → Nat → Int
  | [], _ => -1
  | l :: rest, i => if l = line then (i : Int) else findLineInSliceFrom line rest (i + 1)

/-- The method `findLineInSlice`: the index of the first element of `slice` equal to
`line`, and `-1` when there is none. -/
def findLineInSlice (line : String) (slice : List String) : Int :=
  findLineInSliceFrom line slice 0

/-- The variables the loop of `computeDiff` updates.  (`maxLen` is computed by the
source before the loop and never read afterwards; it is left out.) -/
structure loopState where
  oldIndex : Nat
  newIndex : Nat
  diffs : List diffLine
  deriving DecidableEq, Repr

/-- One evaluation of the loop of `computeDiff`: `none` when the loop condition
`oldIndex < len(oldLines) || newIndex < len(newLines)` is false, and otherwise the
state after the loop body. -/
def loopStep (oldLines newLines : List String) (st : loopState) : Option loopState :=
  if hc : st.oldIndex < oldLines.length ∨ st.newIndex < newLines.length then
    if h : st.oldIndex < oldLines.length ∧ st.newIndex < newLines.length then
      if oldLines.get ⟨st.oldIndex, h.1⟩ = newLines.get ⟨st.newIndex, h.2⟩ then
        some { oldIndex := st.oldIndex + 1, newIndex := st.newIndex + 1,
               diffs := st.diffs ++ [{ text := oldLines.get ⟨st.oldIndex, h.1⟩, op := ' ' }] }
      else if findLineInSlice (oldLines.get ⟨st.oldIndex, h.1⟩)
          (newLines.drop st.newIndex) ≠ -1 then
        some { oldIndex := st.oldIndex, newIndex := st.newIndex + 1,
               diffs := st.diffs ++ [{ text := newLines.get ⟨st.newIndex, h.2⟩, op := '+' }] }
      else if findLineInSlice (newLines.get ⟨st.newIndex, h.2⟩)
          (oldLines.drop st.oldIndex) ≠ -1 then
        some { oldIndex := st.oldIndex + 1, newIndex := st.newIndex,
               diffs := st.diffs ++ [{ text := oldLines.get ⟨st.oldIndex, h.1⟩, op := '-' }] }
      else
        some { oldIndex := st.oldIndex + 1, newIndex := st.newIndex + 1,
               diffs := st.diffs ++ [{ text := oldLines.get ⟨st.oldIndex, h.1⟩, op := '-' },
                                     { text := newLines.get ⟨st.newIndex, h.2⟩, op := '+' }] }
    else if h1 : st.oldIndex < oldLines.length then
      some { oldIndex := st.oldIndex + 1, newIndex := st.newIndex,
             diffs := st.diffs ++ [{ text := oldLines.get ⟨st.oldIndex, h1⟩, op := '-' }] }
    else
      some { oldIndex := st.oldIndex, newIndex := st.newIndex + 1,
             diffs := st.diffs ++
               [{ text := newLines.get ⟨st.newIndex, hc.resolve_left h1⟩, op := '+' }] }
  else none

/-- The loop of `computeDiff`, run for at most `bound` iterations from `st`. -/
def loopRun (oldLines newLines : List String) : Nat → loopState → loopState
  | 0, st => st
  | bound + 1, st =>
    match loopStep oldLines newLines st with
    | none => st
    | some st1 => loopRun oldLines newLines bound st1

/-- The method `computeDiff`. -/
def computeDiff (oldLines newLines : List String) : List diffLine :=
  (loopRun oldLines newLines (oldLines.length + newLines.length)
    { oldIndex := 0, newIndex := 0, diffs := [] }).diffs

/-- The line `fmt.Sprintf("%c%s\n", diff.op, diff.text)` of `formatUnifiedDiff`. -/
def formatLine (d : diffLine) : String :=
  String.singleton d.op ++ d.text ++ "\n"

/-- The method `formatUnifiedDiff`: the header, one line per operation, and the
last newline trimmed. -/
def formatUnifiedDiff (diffs : List diffLine) (oldLines newLines : List String) : String :=
  let header := "@@ -" ++ fmtInt 1 ++ "," ++ fmtInt oldLines.length ++ " +" ++ fmtInt 1 ++ ","
    ++ fmtInt newLines.length ++ " @@\n"
  let result := diffs.foldl (fun acc d => acc ++ formatLine d) header
  strings.TrimSuffix result "\n"

/-- The method `CompareStrings`. -/
def CompareStrings (old new : String) : Option DiffResult × Option error :=
  if old = new then
    (some { differences := false, output := "" }, none)
  else
    let oldLines := strings.Split old "\n"
    let newLines := strings.Split new "\n"
    let diffs := computeDiff oldLines newLines
    if diffs.length = 0 then
      (some { differences := false, output := "" }, none)
    else
      let output := formatUnifiedDiff diffs oldLines newLines
      (some { differences := true, output := output }, none)

/-- The method `CompareManifests`. -/
def CompareManifests (oldManifest newManifest : String) : Option DiffResult × Option error :=
  CompareStrings oldManifest newManifest

/-- The method `CompareMultipleManifests`. -/
def CompareMultipleManifests (oldManifests newManifests : String) :
    Option DiffResult × Option error :=
  CompareStrings oldManifests newManifests

/-- The method `HasDifferences` of `DiffResult`. -/
def DiffResult.HasDifferences (r : DiffResult) : Bool := r.differences

/-- The method `String` of `DiffResult`. -/
def DiffResult.String (r : DiffResult) : String := r.output

/-! ## The reference alignment of the specification -/

/-- The tagged operation of the specification's data model. -/
inductive DiffOp where
  | Context (text : String)
  | Deletion (text : String)
  | Addition (text : String)
  deriving DecidableEq, Repr

/-- The `diffLine` the code uses for an operation: the text and the prefix rune. -/
def DiffOp.toDiffLine : DiffOp → diffLine
  | .Context t => { text := t, op := ' ' }
  | .Deletion t => { text := t, op := '-' }
  | .Addition t => { text := t, op := '+' }

/-- The recursive alignment written from the step policy of the specification
(section 4.2), on the two sequences of lines that remain to be read. -/
def align : List String → List String → List DiffOp
  | [], [] => []
  | o :: os, [] => DiffOp.Deletion o :: align os []
  | [], n :: ns => DiffOp.Addition n :: align [] ns
  | o :: os, n :: ns =>
    if o = n then DiffOp.Context o :: align os ns
    else if o ∈ ns then DiffOp.Addition n :: align (o :: os) ns
    else if n ∈ os then DiffOp.Deletion o :: align os (n :: ns)
    else DiffOp.Deletion o :: DiffOp.Addition n :: align os ns
termination_by os ns => os.length + ns.length

/-- The texts of the `Context` and `Deletion` operations of `ds`, in order. -/
def oldSide (ds : List diffLine) : List String :=
  (ds.filter (fun d => d.op = ' ' || d.op = '-')).map diffLine.text

/-- The texts of the `Context` and `Addition` operations of `ds`, in order. -/
def newSide (ds : List diffLine) : List String :=
  (ds.filter (fun d => d.op = ' ' || d.op = '+')).map diffLine.text

/-- The header line `@@ -1,N +1,M @@` for documents of `N` and `M` lines. -/
def headerLine (N M : Nat) : String :=
  "@@ -1," ++ toString N ++ " +1," ++ toString M ++ " @@"

/-- The output line of an operation: its prefix rune, then its text. -/
def opLine (d : diffLine) : String :=
  String.singleton d.op ++ d.text

/-- `PureRemoval oldLines newLines`: the new lines are the old lines with some lines
removed, where a removed line does not occur among the new lines that come after the
place it is removed from. -/
inductive PureRemoval : List String → List String → Prop where
  | nil : PureRemoval [] []
  | keep (o : String) {os ns : List String} :
      PureRemoval os ns → PureRemoval (o :: os) (o :: ns)
  | drop (o : String) {os ns : List String} :
      o ∉ ns → PureRemoval os ns → PureRemoval (o :: os) ns

/-- The number of Deletion and Addition operations in `ds`. -/
def editCount (ds : List diffLine) : Nat :=
  (ds.filter (fun d => d.op = '-' || d.op = '+')).length

/-- Reading a document back from a formatted diff: the lines of `output` after the header
line that start with a space or with `keep`, each without its first character. -/
def keptLines (keep : Char) (output : String) : List String :=
  (((strings.Split output "\n").drop 1).filter
    (fun l => l.data.head? = some ' ' || l.data.head? = some keep)).map
    (fun l => String.mk (l.data.drop 1))

/-- The lines `keptLines` keeps, joined by newlines. -/
def recover (keep : Char) (output : String) : String :=
  strings.Join (keptLines keep output) "\n"

end diff

/-! ## Package `helmrender` -/

namespace helmrender

/-- A value of type `interface{}` stored in a values map: a nested
`map[string]interface{}`, or a value of any other dynamic type (a number, a string, a
boolean, a slice, nil), which the package never looks into and which is represented by
its text. -/
inductive Value where
  | other (text : String)
  | map (entries : List (String × Value))
  deriving Repr

/-- A Go `map[string]interface{}`: its entries, in some order.  A Go map holds a key at
most once, and the nil map reads as the empty map. -/
abbrev Map := List (String × Value)

mutual
/-- Equality of values is decidable. -/
def Value.decEq : (a b : Value) → Decidable (a = b)
  | .other s, .other t =>
    if h : s = t then isTrue (by rw [h]) else isFalse (by intro h2; cases h2; exact h rfl)
  | .other _, .map _ => isFalse (by intro h; cases h)
  | .map _, .other _ => isFalse (by intro h; cases h)
  | .map m, .map n =>
    match entriesDecEq m n with
    | isTrue h => isTrue (by rw [h])
    | isFalse h => isFalse (by intro h2; cases h2; exact h rfl)
/-- Equality of lists of entries is decidable. -/
def entriesDecEq : (a b : List (String × Value)) → Decidable (a = b)
  | [], [] => isTrue rfl
  | [], _ :: _ => isFalse (by intro h; cases h)
  | _ :: _, [] => isFalse (by intro h; cases h)
  | (k1, v1) :: r1, (k2, v2) :: r2 =>
    if hk : k1 = k2 then
      match Value.decEq v1 v2 with
      | isTrue hv =>
        match entriesDecEq r1 r2 with
        | isTrue hr => isTrue (by rw [hk, hv, hr])
        | isFalse hr => isFalse (by intro h; cases h; exact hr rfl)
      | isFalse hv => isFalse (by intro h; cases h; exact hv rfl)
    else isFalse (by intro h; cases h; exact hk rfl)
end

instance : DecidableEq Value := Value.decEq

/-- The keys of a map. -/
def keys (m : Map) : List String := m.map Prod.fst

/-- The map read `existing, exists := m[k]`: `none` when the key is absent. -/
def mapGet : Map → String → Option Value
  | [], _ => none
  | (k1, v) :: rest, k => if k1 = k then some v else mapGet rest k

/-- The map write `m[k] = v`: the entry of `k` is replaced, or added when absent. -/
def mapSet : Map → String → Value → Map
  | [], k, v => [(k, v)]
  | (k1, v1) :: rest, k, v => if k1 = k then (k1, v) :: rest else (k1, v1) :: mapSet rest k v

/-- The first loop of `mergeMaps`, `for k, v := range base { result[k] = v }`, over
the entries of `base` in the order of the list. -/
def copyLoop (result : Map) : Map → Map
  | [] => result
  | (k, v) :: rest => copyLoop (mapSet result k v) rest

mutual
/-- The second loop of `mergeMaps`, over the entries of `override`: each entry stores
under its key the value `mergeEntry` computes. -/
def mergeLoop (result : Map) : List (String × Value) → Map
  | [] => result
  | (k, v) :: rest => mergeLoop (mapSet result k (mergeEntry (mapGet result k) v)) rest
/-- The value one iteration of the second loop stores under `k`, given `result[k]`
before it (`existing`) and the override value: when both are maps, the recursive call
`mergeMaps(existingMap, overrideMap)`, here with its two loops written out; otherwise
the override value. -/
def mergeEntry (existing : Option Value) : Value → Value
  | .other text => .other text
  | .map overrideMap =>
    match existing with
    | some (.map existingMap) => .map (mergeLoop (copyLoop [] existingMap) overrideMap)
    | _ => .map overrideMap
end

/-- The method `mergeMaps`. -/
def mergeMaps (base override : Map) : Map :=
  mergeLoop (copyLoop [] base) override

/-- The error values the package returns.  `errorString` is the result of `fmt.Errorf`
on a constant format; the `Err` fields hold the error of the library call that failed. -/
inductive Error where
  | errorString (s : String)
  | ChartNotFoundError (Path : String)
  | InvalidValuesError (File : String) (Err : error)
  | RenderError (Chart : String) (Err : error)
  deriving DecidableEq, Repr

/-- The method `Error()` of the error types. -/
def Error.Error : Error → String
  | .errorString s => s
  | .ChartNotFoundError path => "chart not found at path: " ++ path
  | .InvalidValuesError file err => "invalid values file " ++ file ++ ": " ++ err.message
  | .RenderError chart err => "failed to render chart " ++ chart ++ ": " ++ err.message

/-- The struct `RenderOptions`; a nil `Values` is `none`. -/
structure RenderOptions where
  ChartPath : String
  ValuesFiles : List String
  Values : Option Map
  Namespace : String
  ReleaseName : String

/-- The struct `RenderResult`. -/
structure RenderResult where
  Manifests : List String
  Notes : String
  deriving DecidableEq, Repr

/-- What `os.Stat` followed by `os.IsNotExist` tells about a path. -/
inductive StatResult where
  | exists
  | notExist
  | failed (err : error)
  deriving DecidableEq, Repr

/-- The fields `renderTemplates` sets on the Helm install action. -/
structure Install where
  DryRun : Bool
  ReleaseName : String
  Namespace : String
  Replace : Bool
  ClientOnly : Bool
  deriving DecidableEq, Repr

/-- The fields of a Helm release that `renderTemplates` reads. -/
structure Release where
  Manifest : String
  Notes : String
  deriving DecidableEq, Repr

/-- The world outside the package: the file system, the YAML decoder and Helm.  `Chart`
is the type of loaded charts; a call returns its value or its error. -/
structure Env (Chart : Type) where
  Stat : String → StatResult
  Load : String → Except error Chart
  ReadFile : String → Except error String
  Unmarshal : String → Except error Map
  Run : Install → Option Chart → Map → Except error Release

/-- The method `validateOptions`; `none` is the nil error. -/
def validateOptions {Chart : Type} (env : Env Chart) (opts : RenderOptions) : Option Error :=
  if opts.ChartPath = "" then some (Error.errorString "chart path cannot be empty")
  else if opts.ReleaseName = "" then some (Error.errorString "release name cannot be empty")
  else if env.Stat opts.ChartPath = StatResult.notExist then
    some (Error.ChartNotFoundError opts.ChartPath)
  else none

/-- The method `loadChart`. -/
def loadChart {Chart : Type} (env : Env Chart) (chartPath : String) :
    Option Chart × Option Error :=
  match env.Load chartPath with
  | .error _ => (none, some (Error.ChartNotFoundError chartPath))
  | .ok chart => (some chart, none)

/-- The method `loadValuesFile`; the nil map it returns with an error is `[]`. -/
def loadValuesFile {Chart : Type} (env : Env Chart) (filename : String) :
    Map × Option Error :=
  match env.ReadFile filename with
  | .error err => ([], some (Error.InvalidValuesError filename err))
  | .ok data =>
    match env.Unmarshal data with
    | .error err => ([], some (Error.InvalidValuesError filename err))
    | .ok values => (values, none)

/-- The loop of `mergeValues` over the values files, with the `return nil, err` in it. -/
def valuesFilesLoop {Chart : Type} (env : Env Chart) (values : Map) :
    List String → Map × Option Error
  | [] => (values, none)
  | valuesFile :: rest =>
    match loadValuesFile env valuesFile with
    | (_, some err) => ([], some err)
    | (fileValues, none) => valuesFilesLoop env (mergeMaps values fileValues) rest

/-- The method `mergeValues`. -/
def mergeValues {Chart : Type} (env : Env Chart) (opts : RenderOptions) :
    Map × Option Error :=
  match valuesFilesLoop env [] opts.ValuesFiles with
  | (_, some err) => ([], some err)
  | (values, none) =>
    match opts.Values with
    | some inline => (mergeMaps values inline, none)
    | none => (values, none)

/-- The loop of `separateManifests` over the documents. -/
def separateLoop (manifests : List String) : List String → List String
  | [] => manifests
  | doc :: rest =>
    if strings.TrimSpace doc = "" then separateLoop manifests rest
    else separateLoop (manifests ++ [strings.TrimSpace doc]) rest

/-- The method `separateManifests`. -/
def separateManifests (manifestString : String) : List String :=
  if manifestString = "" then []
  else separateLoop [] (strings.Split manifestString "---")

/-- The method `renderTemplates`. -/
def renderTemplates {Chart : Type} (env : Env Chart) (chart : Option Chart)
    (opts : RenderOptions) (values : Map) : List String × String × Option Error :=
  let client : Install :=
    { DryRun := true, ReleaseName := opts.ReleaseName,
      Namespace := if opts.Namespace = "" then "default" else opts.Namespace,
      Replace := true, ClientOnly := true }
  match env.Run client chart values with
  | .error err => ([], "", some (Error.RenderError opts.ChartPath err))
  | .ok release => (separateManifests release.Manifest, release.Notes, none)

/-- The method `Render`. -/
def Render {Chart : Type} (env : Env Chart) (opts : RenderOptions) :
    Option RenderResult × Option Error :=
  match validateOptions env opts with
  | some err => (none, some err)
  | none =>
    match loadChart env opts.ChartPath with
    | (_, some err) => (none, some err)
    | (chart, none) =>
      match mergeValues env opts with
      | (_, some err) => (none, some err)
      | (values, none) =>
        match renderTemplates env chart opts values with
        | (_, _, some err) => (none, some err)
        | (manifests, notes, none) => (some { Manifests := manifests, Notes := notes }, none)

/-- The value at a path of keys in a map: `m[k1][k2]...[kn]`, `none` when a key is
absent or a value on the way is not a map. -/
def getPath : Map → List String → Option Value
  | _, [] => none
  | m, [k] => mapGet m k
  | m, k :: k2 :: path =>
    match mapGet m k with
    | some (.map inner) => getPath inner (k2 :: path)
    | _ => none

mutual
/-- A value is well formed when every map in it holds each key once, as Go maps do. -/
def Value.wellFormed : Value → Bool
  | .other _ => true
  | .map entries => entriesWellFormed entries
/-- The entries of a map are well formed when no key occurs twice and the values are
well formed. -/
def entriesWellFormed : List (String × Value) → Bool
  | [] => true
  | (k, v) :: rest =>
    !(rest.map Prod.fst).contains k && (v.wellFormed && entriesWellFormed rest)
end

/-- A map touches a path of keys when merging it over another map can change what that
map holds at the path: it holds a value at the path itself, or a value that is not a map
at a key on the way to it. -/
def touches : Map → List String → Bool
  | _, [] => false
  | m, [k] => (mapGet m k).isSome
  | m, k :: k2 :: path =>
    match mapGet m k with
    | none => false
    | some (.other _) => true
    | some (.map inner) => touches inner (k2 :: path)

/-- Each of the maps met along a path of keys in `m` holds each key once. -/
def nodupAlong : Map → List String → Prop
  | _, [] => True
  | m, k :: path =>
    (keys m).Nodup ∧ ∀ inner, mapGet m k = some (Value.map inner) → nodupAlong inner path

/-- An environment for examples: every path has the status `stat`, every chart loads,
every values file is empty, and Helm renders the fixed text `manifest`. -/
def sampleEnv (stat : StatResult) (manifest : String) : Env Unit where
  Stat := fun _ => stat
  Load := fun _ => .ok ()
  ReadFile := fun _ => .ok ""
  Unmarshal := fun _ => .ok []
  Run := fun _ _ _ => .ok { Manifest := manifest, Notes := "" }

/-- An environment for examples in which the values file named `f` decodes to the map
`files` gives for `f`, and to the empty map when it gives none. -/
def filesEnv (files : List (String × Map)) : Env Unit where
  Stat := fun _ => StatResult.exists
  Load := fun _ => .ok ()
  ReadFile := fun f => .ok f
  Unmarshal := fun data => .ok ((files.lookup data).getD [])
  Run := fun _ _ _ => .ok { Manifest := "", Notes := "" }

end helmrender

namespace diff

/-! ## The scenarios of the specification, evaluated on the embedding -/

example : CompareStrings "hello" "hello" = (some ⟨false, ""⟩, none) := by decide
example : CompareStrings "hello" "world" =
    (some ⟨true, "@@ -1,1 +1,1 @@\n-hello\n+world"⟩, none) := by decide
example : (CompareStrings "line1\nline3\nline5" "line1\nline2\nline3\nline4\nline5").1.map
    DiffResult.String =
    some "@@ -1,3 +1,5 @@\n line1\n+line2\n line3\n+line4\n line5" := by decide
example : (CompareStrings "a\nb\nc\nd\ne" "a\nc\ne").1.map DiffResult.String =
    some "@@ -1,5 +1,3 @@\n a\n-b\n c\n-d\n e" := by decide
example : strings.Split "a---b--c---" "---" = ["a", "b--c", ""] := by decide
example : strings.Split "" "\n" = [""] := by decide
example : strings.Split "a\n\nb\n" "\n" = ["a", "", "b", ""] := by decide

/-! ## The alignment loop -/

theorem findLineInSliceFrom_ne_iff (line : String) (slice : List String) (i : Nat) :
    findLineInSliceFrom line slice i ≠ -1 ↔ line ∈ slice := by
  induction slice generalizing i with
  | nil => simp [findLineInSliceFrom]
  | cons l rest ih =>
    unfold findLineInSliceFrom
    by_cases hl : l = line
    · subst hl
      simp only [if_true, List.mem_cons, true_or, iff_true]
      omega
    · have hl2 : ¬ line = l := fun h => hl h.symm
      simp only [hl, if_false, List.mem_cons, hl2, false_or]
      exact ih (i + 1)

theorem findLineInSlice_ne_iff (line : String) (slice : List String) :
    findLineInSlice line slice ≠ -1 ↔ line ∈ slice :=
  findLineInSliceFrom_ne_iff line slice 0

/-- The loop body at a state whose cursors sit before `o :: os` and `n :: ns`. -/
theorem loopStep_cons_cons (oldLines newLines : List String) (st : loopState)
    (o n : String) (os ns : List String)
    (ho : oldLines.drop st.oldIndex = o :: os) (hn : newLines.drop st.newIndex = n :: ns) :
    loopStep oldLines newLines st =
      if o = n then
        some ⟨st.oldIndex + 1, st.newIndex + 1, st.diffs ++ [⟨o, ' '⟩]⟩
      else if o ∈ ns then
        some ⟨st.oldIndex, st.newIndex + 1, st.diffs ++ [⟨n, '+'⟩]⟩
      else if n ∈ os then
        some ⟨st.oldIndex + 1, st.newIndex, st.diffs ++ [⟨o, '-'⟩]⟩
      else
        some ⟨st.oldIndex + 1, st.newIndex + 1, st.diffs ++ [⟨o, '-'⟩, ⟨n, '+'⟩]⟩ := by
  have hi : st.oldIndex < oldLines.length := by
    by_contra hcon
    rw [List.drop_eq_nil_of_le (Nat.le_of_not_lt hcon)] at ho
    cases ho
  have hj : st.newIndex < newLines.length := by
    by_contra hcon
    rw [List.drop_eq_nil_of_le (Nat.le_of_not_lt hcon)] at hn
    cases hn
  have ho2 := ho
  have hn2 := hn
  rw [List.drop_eq_getElem_cons hi] at ho2
  rw [List.drop_eq_getElem_cons hj] at hn2
  have hoe : oldLines.get ⟨st.oldIndex, hi⟩ = o := (List.cons.inj ho2).1
  have hne : newLines.get ⟨st.newIndex, hj⟩ = n := (List.cons.inj hn2).1
  unfold loopStep
  rw [dif_pos (Or.inl hi), dif_pos ⟨hi, hj⟩, hoe, hne, ho, hn]
  by_cases hon : o = n
  · simp only [hon, if_true]
  · have hno : ¬ n = o := fun h => hon h.symm
    simp only [hon, if_false, findLineInSlice_ne_iff, List.mem_cons, false_or, hno]

/-- The loop body when only old lines remain. -/
theorem loopStep_cons_nil (oldLines newLines : List String) (st : loopState)
    (o : String) (os : List String)
    (ho : oldLines.drop st.oldIndex = o :: os) (hn : newLines.drop st.newIndex = []) :
    loopStep oldLines newLines st =
      some ⟨st.oldIndex + 1, st.newIndex, st.diffs ++ [⟨o, '-'⟩]⟩ := by
  have hi : st.oldIndex < oldLines.length := by
    by_contra hcon
    rw [List.drop_eq_nil_of_le (Nat.le_of_not_lt hcon)] at ho
    cases ho
  have hj : ¬ st.newIndex < newLines.length := by
    intro hcon
    rw [List.drop_eq_getElem_cons hcon] at hn
    cases hn
  have ho2 := ho
  rw [List.drop_eq_getElem_cons hi] at ho2
  have hoe : oldLines.get ⟨st.oldIndex, hi⟩ = o := (List.cons.inj ho2).1
  unfold loopStep
  rw [dif_pos (Or.inl hi), dif_neg (fun h => hj h.2), dif_pos hi, hoe]

/-- The loop body when only new lines remain. -/
theorem loopStep_nil_cons (oldLines newLines : List String) (st : loopState)
    (n : String) (ns : List String)
    (ho : oldLines.drop st.oldIndex = []) (hn : newLines.drop st.newIndex = n :: ns) :
    loopStep oldLines newLines st =
      some ⟨st.oldIndex, st.newIndex + 1, st.diffs ++ [⟨n, '+'⟩]⟩ := by
  have hi : ¬ st.oldIndex < oldLines.length := by
    intro hcon
    rw [List.drop_eq_getElem_cons hcon] at ho
    cases ho
  have hj : st.newIndex < newLines.length := by
    by_contra hcon
    rw [List.drop_eq_nil_of_le (Nat.le_of_not_lt hcon)] at hn
    cases hn
  have hn2 := hn
  rw [List.drop_eq_getElem_cons hj] at hn2
  have hne : newLines.get ⟨st.newIndex, hj⟩ = n := (List.cons.inj hn2).1
  unfold loopStep
  rw [dif_pos (Or.inr hj), dif_neg (fun h => hi h.1), dif_neg hi, hne]

/-- The loop condition is false exactly when both cursors are at or past the end. -/
theorem loopStep_nil_nil (oldLines newLines : List String) (st : loopState)
    (ho : oldLines.drop st.oldIndex = []) (hn : newLines.drop st.newIndex = []) :
    loopStep oldLines newLines st = none := by
  have hi : ¬ st.oldIndex < oldLines.length := by
    intro hcon
    rw [List.drop_eq_getElem_cons hcon] at ho
    cases ho
  have hj : ¬ st.newIndex < newLines.length := by
    intro hcon
    rw [List.drop_eq_getElem_cons hcon] at hn
    cases hn
  unfold loopStep
  rw [dif_neg (fun h => h.elim hi hj)]

theorem drop_succ_of_drop_eq_cons {α : Type} (l : List α) (i : Nat) (a : α) (t : List α)
    (h : l.drop i = a :: t) : l.drop (i + 1) = t := by
  rw [← List.tail_drop, h, List.tail_cons]

/-- Run with a bound that covers the lines still to be read, the loop appends to
`diffs` the reference alignment of the two remaining suffixes, and it stops in a state
where the loop condition is false. -/
theorem loopRun_spec (oldLines newLines : List String) :
    ∀ (bound : Nat) (st : loopState),
      (oldLines.drop st.oldIndex).length + (newLines.drop st.newIndex).length ≤ bound →
      (loopRun oldLines newLines bound st).diffs =
          st.diffs ++ (align (oldLines.drop st.oldIndex)
            (newLines.drop st.newIndex)).map DiffOp.toDiffLine ∧
        loopStep oldLines newLines (loopRun oldLines newLines bound st) = none := by
  intro bound
  induction bound with
  | zero =>
    intro st hb
    have ho : oldLines.drop st.oldIndex = [] := List.length_eq_zero.mp (by omega)
    have hn : newLines.drop st.newIndex = [] := List.length_eq_zero.mp (by omega)
    simp only [loopRun, ho, hn, align, List.map_nil, List.append_nil, true_and]
    exact loopStep_nil_nil oldLines newLines st ho hn
  | succ b ih =>
    intro st hb
    cases ho : oldLines.drop st.oldIndex with
    | nil =>
      cases hn : newLines.drop st.newIndex with
      | nil =>
        have hs := loopStep_nil_nil oldLines newLines st ho hn
        simp only [loopRun, hs, align, List.map_nil, List.append_nil, true_and]
      | cons n ns =>
        have hs := loopStep_nil_cons oldLines newLines st n ns ho hn
        have hn1 := drop_succ_of_drop_eq_cons newLines st.newIndex n ns hn
        have hrec := ih ⟨st.oldIndex, st.newIndex + 1, st.diffs ++ [⟨n, '+'⟩]⟩
          (by simp only [ho, hn1]; rw [ho, hn] at hb; simp only [List.length_cons] at hb; omega)
        simp only [ho, hn1] at hrec
        simp only [loopRun, hs, align, List.map_cons, DiffOp.toDiffLine]
        refine ⟨?_, hrec.2⟩
        rw [hrec.1, List.append_assoc]
        rfl
    | cons o os =>
      have ho1 := drop_succ_of_drop_eq_cons oldLines st.oldIndex o os ho
      cases hn : newLines.drop st.newIndex with
      | nil =>
        have hs := loopStep_cons_nil oldLines newLines st o os ho hn
        have hrec := ih ⟨st.oldIndex + 1, st.newIndex, st.diffs ++ [⟨o, '-'⟩]⟩
          (by simp only [ho1, hn]; rw [ho, hn] at hb; simp only [List.length_cons] at hb; omega)
        simp only [ho1, hn] at hrec
        simp only [loopRun, hs, align, List.map_cons, DiffOp.toDiffLine]
        refine ⟨?_, hrec.2⟩
        rw [hrec.1, List.append_assoc]
        rfl
      | cons n ns =>
        have hn1 := drop_succ_of_drop_eq_cons newLines st.newIndex n ns hn
        have hs := loopStep_cons_cons oldLines newLines st o n os ns ho hn
        rw [ho, hn] at hb
        simp only [List.length_cons] at hb
        by_cases h1 : o = n
        · rw [if_pos h1] at hs
          have hrec := ih ⟨st.oldIndex + 1, st.newIndex + 1, st.diffs ++ [⟨o, ' '⟩]⟩
            (by simp only [ho1, hn1]; omega)
          simp only [ho1, hn1] at hrec
          simp only [loopRun, hs]
          refine ⟨?_, hrec.2⟩
          rw [hrec.1, List.append_assoc, align, if_pos h1]
          rfl
        · rw [if_neg h1] at hs
          by_cases h2 : o ∈ ns
          · rw [if_pos h2] at hs
            have hrec := ih ⟨st.oldIndex, st.newIndex + 1, st.diffs ++ [⟨n, '+'⟩]⟩
              (by simp only [ho, hn1, List.length_cons]; omega)
            simp only [ho, hn1] at hrec
            simp only [loopRun, hs]
            refine ⟨?_, hrec.2⟩
            rw [hrec.1, List.append_assoc]
            conv_rhs => rw [align, if_neg h1, if_pos h2]
            rfl
          · rw [if_neg h2] at hs
            by_cases h3 : n ∈ os
            · rw [if_pos h3] at hs
              have hrec := ih ⟨st.oldIndex + 1, st.newIndex, st.diffs ++ [⟨o, '-'⟩]⟩
                (by simp only [ho1, hn, List.length_cons]; omega)
              simp only [ho1, hn] at hrec
              simp only [loopRun, hs]
              refine ⟨?_, hrec.2⟩
              rw [hrec.1, List.append_assoc]
              conv_rhs => rw [align, if_neg h1, if_neg h2, if_pos h3]
              rfl
            · rw [if_neg h3] at hs
              have hrec := ih ⟨st.oldIndex + 1, st.newIndex + 1,
                  st.diffs ++ [⟨o, '-'⟩, ⟨n, '+'⟩]⟩
                (by simp only [ho1, hn1]; omega)
              simp only [ho1, hn1] at hrec
              simp only [loopRun, hs]
              refine ⟨?_, hrec.2⟩
              rw [hrec.1, List.append_assoc]
              conv_rhs => rw [align, if_neg h1, if_neg h2, if_neg h3]
              rfl

/-- The loop of `computeDiff`, run with the bound `computeDiff` gives it, ends with the
loop condition false: the bound is never what stops it. -/
theorem computeDiff_loop_exits (oldLines newLines : List String) :
    loopStep oldLines newLines
      (loopRun oldLines newLines (oldLines.length + newLines.length) ⟨0, 0, []⟩) = none :=
  (loopRun_spec oldLines newLines (oldLines.length + newLines.length) ⟨0, 0, []⟩
    (by simp)).2

/-- The method `computeDiff` computes the reference alignment. -/
theorem computeDiff_eq_align (oldLines newLines : List String) :
    computeDiff oldLines newLines = (align oldLines newLines).map DiffOp.toDiffLine := by
  have h := (loopRun_spec oldLines newLines (oldLines.length + newLines.length) ⟨0, 0, []⟩
    (by simp)).1
  simpa [computeDiff] using h

/-! ## Reconstruction of the two documents from the operations -/

theorem oldSide_cons_context (t : String) (ds : List diffLine) :
    oldSide (⟨t, ' '⟩ :: ds) = t :: oldSide ds := by
  simp [oldSide]

theorem oldSide_cons_deletion (t : String) (ds : List diffLine) :
    oldSide (⟨t, '-'⟩ :: ds) = t :: oldSide ds := by
  simp [oldSide]

theorem oldSide_cons_addition (t : String) (ds : List diffLine) :
    oldSide (⟨t, '+'⟩ :: ds) = oldSide ds := by
  simp [oldSide]

theorem newSide_cons_context (t : String) (ds : List diffLine) :
    newSide (⟨t, ' '⟩ :: ds) = t :: newSide ds := by
  simp [newSide]

theorem newSide_cons_deletion (t : String) (ds : List diffLine) :
    newSide (⟨t, '-'⟩ :: ds) = newSide ds := by
  simp [newSide]

theorem newSide_cons_addition (t : String) (ds : List diffLine) :
    newSide (⟨t, '+'⟩ :: ds) = t :: newSide ds := by
  simp [newSide]

theorem oldSide_align (oldLines newLines : List String) :
    oldSide ((align oldLines newLines).map DiffOp.toDiffLine) = oldLines := by
  induction oldLines, newLines using align.induct with
  | case1 => simp [align, oldSide]
  | case2 o os ih =>
    rw [align, List.map_cons, DiffOp.toDiffLine, oldSide_cons_deletion, ih]
  | case3 n ns ih =>
    rw [align, List.map_cons, DiffOp.toDiffLine, oldSide_cons_addition, ih]
  | case4 os o ns ih =>
    rw [align, if_pos rfl, List.map_cons, DiffOp.toDiffLine, oldSide_cons_context, ih]
  | case5 o os n ns h1 h2 ih =>
    rw [align, if_neg h1, if_pos h2, List.map_cons, DiffOp.toDiffLine,
      oldSide_cons_addition, ih]
  | case6 o os n ns h1 h2 h3 ih =>
    rw [align, if_neg h1, if_neg h2, if_pos h3, List.map_cons, DiffOp.toDiffLine,
      oldSide_cons_deletion, ih]
  | case7 o os n ns h1 h2 h3 ih =>
    rw [align, if_neg h1, if_neg h2, if_neg h3, List.map_cons, List.map_cons,
      DiffOp.toDiffLine, DiffOp.toDiffLine, oldSide_cons_deletion, oldSide_cons_addition, ih]

theorem newSide_align (oldLines newLines : List String) :
    newSide ((align oldLines newLines).map DiffOp.toDiffLine) = newLines := by
  induction oldLines, newLines using align.induct with
  | case1 => simp [align, newSide]
  | case2 o os ih =>
    rw [align, List.map_cons, DiffOp.toDiffLine, newSide_cons_deletion, ih]
  | case3 n ns ih =>
    rw [align, List.map_cons, DiffOp.toDiffLine, newSide_cons_addition, ih]
  | case4 os o ns ih =>
    rw [align, if_pos rfl, List.map_cons, DiffOp.toDiffLine, newSide_cons_context, ih]
  | case5 o os n ns h1 h2 ih =>
    rw [align, if_neg h1, if_pos h2, List.map_cons, DiffOp.toDiffLine,
      newSide_cons_addition, ih]
  | case6 o os n ns h1 h2 h3 ih =>
    rw [align, if_neg h1, if_neg h2, if_pos h3, List.map_cons, DiffOp.toDiffLine,
      newSide_cons_deletion, ih]
  | case7 o os n ns h1 h2 h3 ih =>
    rw [align, if_neg h1, if_neg h2, if_neg h3, List.map_cons, List.map_cons,
      DiffOp.toDiffLine, DiffOp.toDiffLine, newSide_cons_deletion, newSide_cons_addition, ih]

/-- C1: for every pair of line sequences, the texts of the Context and Deletion
operations returned by `computeDiff`, taken in output order, are exactly `oldLines`:
the same lines in the same order, none dropped and none duplicated. -/
theorem computeDiff_reconstructs_old (oldLines newLines : List String) :
    oldSide (computeDiff oldLines newLines) = oldLines := by
  rw [computeDiff_eq_align]
  exact oldSide_align oldLines newLines

/-- C2: for every pair of line sequences, the texts of the Context and Addition
operations returned by `computeDiff`, taken in output order, are exactly `newLines`:
the same lines in the same order, none dropped and none duplicated. -/
theorem computeDiff_reconstructs_new (oldLines newLines : List String) :
    newSide (computeDiff oldLines newLines) = newLines := by
  rw [computeDiff_eq_align]
  exact newSide_align oldLines newLines

/-! ## The facade `CompareStrings` -/

theorem splitAux_ne_nil (sep : List Char) (l : List Char) :
    ∀ (skip : Nat) (acc : List Char), strings.splitAux sep l skip acc ≠ [] := by
  induction l with
  | nil => intro skip acc; simp [strings.splitAux]
  | cons c cs ih =>
    intro skip acc
    cases skip with
    | zero =>
      unfold strings.splitAux
      split
      · exact List.cons_ne_nil _ _
      · exact ih 0 (c :: acc)
    | succ k =>
      unfold strings.splitAux
      exact ih k acc

/-- Splitting on the newline yields at least one line, also for the empty document. -/
theorem Split_newline_ne_nil (s : String) : strings.Split s "\n" ≠ [] := by
  have hsep : ¬ ("\n" : String).data = [] := by decide
  unfold strings.Split
  rw [if_neg hsep]
  intro h
  exact splitAux_ne_nil _ _ 0 [] (List.map_eq_nil_iff.mp h)

theorem computeDiff_ne_nil_of_old (oldLines newLines : List String) (h : oldLines ≠ []) :
    computeDiff oldLines newLines ≠ [] := by
  intro hd
  have hr := oldSide_align oldLines newLines
  rw [← computeDiff_eq_align, hd] at hr
  exact h hr.symm

/-- On two different documents `CompareStrings` takes its last return. -/
theorem CompareStrings_of_ne (old new : String) (h : old ≠ new) :
    CompareStrings old new =
      (some { differences := true,
              output := formatUnifiedDiff
                (computeDiff (strings.Split old "\n") (strings.Split new "\n"))
                (strings.Split old "\n") (strings.Split new "\n") }, none) := by
  have hd : ¬ (computeDiff (strings.Split old "\n") (strings.Split new "\n")).length = 0 :=
    fun h0 => computeDiff_ne_nil_of_old _ _ (Split_newline_ne_nil old) (List.length_eq_zero.mp h0)
  unfold CompareStrings
  simp only [if_neg h, if_neg hd]

theorem CompareStrings_of_eq (d : String) :
    CompareStrings d d = (some { differences := false, output := "" }, none) := by
  unfold CompareStrings
  simp only [if_true]

theorem ne_append_newlines (d : String) (k : Nat) :
    d ≠ d ++ String.mk (List.replicate (k + 1) '\n') := by
  intro h
  have hl := congrArg String.length h
  rw [String.length_append] at hl
  have hk : (String.mk (List.replicate (k + 1) '\n')).length = k + 1 :=
    List.length_replicate (k + 1) '\n'
  omega

/-- C3: for every document `d`, `CompareStrings(d, d)` returns a result whose
`HasDifferences()` is false and whose `String()` is the empty string. -/
theorem CompareStrings_identity (d : String) :
    ∃ r : DiffResult, (CompareStrings d d).1 = some r ∧
      r.HasDifferences = false ∧ r.String = "" := by
  refine ⟨{ differences := false, output := "" }, ?_, rfl, rfl⟩
  rw [CompareStrings_of_eq]

/-- C4: for every pair of documents, the result of `CompareStrings(old, new)` has
`HasDifferences()` false if and only if `old == new` as whole strings; in particular a
document and the same document followed by one or more newlines (a trailing newline,
trailing blank lines) are reported as different. -/
theorem CompareStrings_no_differences_iff :
    (∀ old new : String, ∃ r : DiffResult, (CompareStrings old new).1 = some r ∧
      (r.HasDifferences = false ↔ old = new)) ∧
    (∀ (d : String) (k : Nat), ∃ r : DiffResult,
      (CompareStrings d (d ++ String.mk (List.replicate (k + 1) '\n'))).1 = some r ∧
        r.HasDifferences = true) := by
  constructor
  · intro old new
    by_cases h : old = new
    · subst h
      refine ⟨{ differences := false, output := "" }, ?_, ?_⟩
      · rw [CompareStrings_of_eq]
      · simp [DiffResult.HasDifferences]
    · refine ⟨_, congrArg Prod.fst (CompareStrings_of_ne old new h), ?_⟩
      simp [DiffResult.HasDifferences, h]
  · intro d k
    exact ⟨_, congrArg Prod.fst (CompareStrings_of_ne _ _ (ne_append_newlines d k)), rfl⟩

/-- C5: `CompareStrings` is total and never fails: for every pair of input strings
(empty, whitespace-only and with mismatched line terminators included) it returns a
non-nil result together with a nil error; the alignment loop it runs ends by its own
condition, within the bound of the model. -/
theorem CompareStrings_total (old new : String) :
    (∃ r : DiffResult, CompareStrings old new = (some r, none)) ∧
    loopStep (strings.Split old "\n") (strings.Split new "\n")
      (loopRun (strings.Split old "\n") (strings.Split new "\n")
        ((strings.Split old "\n").length + (strings.Split new "\n").length)
        ⟨0, 0, []⟩) = none := by
  refine ⟨?_, computeDiff_loop_exits _ _⟩
  by_cases h : old = new
  · subst h
    exact ⟨_, CompareStrings_of_eq old⟩
  · exact ⟨_, CompareStrings_of_ne old new h⟩

/-- C9: for every pair of strings, `CompareManifests` and `CompareMultipleManifests`
return what `CompareStrings` returns on the same arguments: the same result (hence the
same differences flag and the same output text) and the same error; the document
separator `---` is not looked at. -/
theorem CompareManifests_eq_CompareStrings (a b : String) :
    CompareManifests a b = CompareStrings a b ∧
    CompareMultipleManifests a b = CompareStrings a b ∧
    (CompareManifests a b).1.map DiffResult.HasDifferences =
      (CompareStrings a b).1.map DiffResult.HasDifferences ∧
    (CompareManifests a b).1.map DiffResult.String =
      (CompareStrings a b).1.map DiffResult.String ∧
    (CompareManifests a b).2 = (CompareStrings a b).2 ∧
    (CompareMultipleManifests a b).1.map DiffResult.HasDifferences =
      (CompareStrings a b).1.map DiffResult.HasDifferences ∧
    (CompareMultipleManifests a b).1.map DiffResult.String =
      (CompareStrings a b).1.map DiffResult.String ∧
    (CompareMultipleManifests a b).2 = (CompareStrings a b).2 :=
  ⟨rfl, rfl, rfl, rfl, rfl, rfl, rfl, rfl⟩

/-- C10: on every pair of line sequences `computeDiff` returns the reference recursive
alignment `align` of the step policy (Context when the heads are equal, else Addition
when the old head occurs later in the new lines, else Deletion when the new head occurs
later in the old lines, else Deletion then Addition; Deletions or Additions for what
remains when one side is exhausted). -/
theorem computeDiff_refines_align (oldLines newLines : List String) :
    computeDiff oldLines newLines = (align oldLines newLines).map DiffOp.toDiffLine :=
  computeDiff_eq_align oldLines newLines

/-! ## Splitting on the newline -/

theorem splitAux_single_cons (c x : Char) (cs acc : List Char) :
    strings.splitAux [c] (x :: cs) 0 acc =
      if x = c then acc.reverse :: strings.splitAux [c] cs 0 []
      else strings.splitAux [c] cs 0 (x :: acc) := by
  have hp : [c] <+: x :: cs ↔ x = c := by
    rw [List.cons_prefix_cons]
    constructor
    · intro h; exact h.1.symm
    · intro h; exact ⟨h.symm, List.nil_prefix⟩
  rw [strings.splitAux]
  by_cases hx : x = c
  · rw [if_pos (hp.mpr hx), if_pos hx]
    rfl
  · rw [if_neg (fun h => hx (hp.mp h)), if_neg hx]

/-- A text without the separator is one piece. -/
theorem splitAux_of_not_mem (c : Char) (l : List Char) :
    ∀ acc : List Char, c ∉ l → strings.splitAux [c] l 0 acc = [acc.reverse ++ l] := by
  induction l with
  | nil => intro acc _; simp [strings.splitAux]
  | cons x cs ih =>
    intro acc hc
    have hx : ¬ x = c := fun h => hc (by simp [h])
    have hcs : c ∉ cs := fun h => hc (List.mem_cons_of_mem x h)
    rw [splitAux_single_cons, if_neg hx, ih (x :: acc) hcs]
    simp

/-- The first piece ends at the first separator. -/
theorem splitAux_append_sep (c : Char) (l rest : List Char) :
    ∀ acc : List Char, c ∉ l →
      strings.splitAux [c] (l ++ c :: rest) 0 acc =
        (acc.reverse ++ l) :: strings.splitAux [c] rest 0 [] := by
  induction l with
  | nil =>
    intro acc _
    rw [List.nil_append, splitAux_single_cons, if_pos rfl, List.append_nil]
  | cons x cs ih =>
    intro acc hc
    have hx : ¬ x = c := fun h => hc (by simp [h])
    have hcs : c ∉ cs := fun h => hc (List.mem_cons_of_mem x h)
    rw [List.cons_append, splitAux_single_cons, if_neg hx, ih (x :: acc) hcs]
    simp

theorem intercalate_cons_cons {α : Type} (sep l l1 : List α) (t : List (List α)) :
    List.intercalate sep (l :: l1 :: t) = l ++ sep ++ List.intercalate sep (l1 :: t) := by
  simp [List.intercalate, List.intersperse]

theorem intercalate_singleton {α : Type} (sep l : List α) :
    List.intercalate sep [l] = l := by
  simp [List.intercalate, List.intersperse]

/-- Splitting the join of separator-free pieces gives the pieces back. -/
theorem splitAux_intercalate (c : Char) (l : List Char) (t : List (List Char)) :
    (∀ p ∈ l :: t, c ∉ p) →
      strings.splitAux [c] (List.intercalate [c] (l :: t)) 0 [] = l :: t := by
  induction t generalizing l with
  | nil =>
    intro h
    rw [intercalate_singleton, splitAux_of_not_mem c l [] (h l (by simp))]
    rfl
  | cons l1 t ih =>
    intro h
    rw [intercalate_cons_cons, List.append_assoc, List.singleton_append,
      splitAux_append_sep c l _ [] (h l (by simp)),
      ih l1 (fun p hp => h p (List.mem_cons_of_mem l hp))]
    rfl

/-- No piece of a split contains the separator. -/
theorem splitAux_pieces (c : Char) (l : List Char) :
    ∀ acc : List Char, c ∉ acc → ∀ p ∈ strings.splitAux [c] l 0 acc, c ∉ p := by
  induction l with
  | nil =>
    intro acc hacc p hp
    simp only [strings.splitAux, List.mem_singleton] at hp
    subst hp
    simpa using hacc
  | cons x cs ih =>
    intro acc hacc p hp
    rw [splitAux_single_cons] at hp
    by_cases hx : x = c
    · rw [if_pos hx] at hp
      rcases List.mem_cons.mp hp with h1 | h1
      · subst h1
        simpa using hacc
      · exact ih [] (by simp) p h1
    · rw [if_neg hx] at hp
      refine ih (x :: acc) ?_ p hp
      intro hm
      rcases List.mem_cons.mp hm with h1 | h1
      · exact hx h1.symm
      · exact hacc h1

theorem Split_newline_eq (s : String) :
    strings.Split s "\n" = (strings.splitAux ['\n'] s.data 0 []).map String.mk := by
  have hsep : ¬ ("\n" : String).data = [] := by decide
  unfold strings.Split
  rw [if_neg hsep]

/-- The lines of a document contain no newline. -/
theorem Split_newline_lines (s : String) :
    ∀ line ∈ strings.Split s "\n", '\n' ∉ line.data := by
  intro line hl
  rw [Split_newline_eq] at hl
  obtain ⟨p, hp, rfl⟩ := List.mem_map.mp hl
  exact splitAux_pieces '\n' s.data [] (by simp) p hp

/-! ## The formatter -/

theorem digitChar_ne_newline (n : Nat) : Nat.digitChar (n % 10) ≠ '\n' := by
  have h : n % 10 < 10 := Nat.mod_lt n (by decide)
  generalize n % 10 = m at h
  interval_cases m <;> decide

theorem toDigitsCore_no_newline (fuel : Nat) :
    ∀ (n : Nat) (ds : List Char), '\n' ∉ ds → '\n' ∉ Nat.toDigitsCore 10 fuel n ds := by
  induction fuel with
  | zero => intro n ds h; simpa [Nat.toDigitsCore] using h
  | succ k ih =>
    intro n ds h
    have hcons : '\n' ∉ Nat.digitChar (n % 10) :: ds := by
      intro hm
      rcases List.mem_cons.mp hm with h1 | h1
      · exact digitChar_ne_newline n h1.symm
      · exact h h1
    unfold Nat.toDigitsCore
    simp only
    split_ifs
    · exact hcons
    · exact ih (n / 10) _ hcons

/-- The decimal digits of a number contain no newline. -/
theorem toString_nat_no_newline (n : Nat) : '\n' ∉ (toString n).data :=
  toDigitsCore_no_newline (n + 1) n [] (by simp)

theorem headerLine_no_newline (N M : Nat) : '\n' ∉ (headerLine N M).data := by
  have hN := toString_nat_no_newline N
  have hM := toString_nat_no_newline M
  have h1 : '\n' ∉ ("@@ -1," : String).data := by decide
  have h2 : '\n' ∉ (" +1," : String).data := by decide
  have h3 : '\n' ∉ (" @@" : String).data := by decide
  simp only [headerLine, String.data_append, List.mem_append, not_or]
  exact ⟨⟨⟨⟨h1, hN⟩, h2⟩, hM⟩, h3⟩

theorem opLine_data (d : diffLine) : (opLine d).data = d.op :: d.text.data := by
  simp [opLine, String.singleton, String.push, String.data_append]

theorem formatLine_data (d : diffLine) :
    (formatLine d).data = (opLine d).data ++ ['\n'] := by
  simp [formatLine, opLine, String.data_append]

theorem foldl_formatLine_data (diffs : List diffLine) :
    ∀ acc : String, (diffs.foldl (fun acc d => acc ++ formatLine d) acc).data =
      acc.data ++ (diffs.map (fun d => (opLine d).data ++ ['\n'])).flatten := by
  induction diffs with
  | nil => intro acc; simp
  | cons d ds ih =>
    intro acc
    rw [List.foldl_cons, ih, String.data_append, formatLine_data]
    simp

theorem flatten_map_append_sep {α : Type} (c : α) (l : List α) (t : List (List α)) :
    ((l :: t).map (fun p => p ++ [c])).flatten = List.intercalate [c] (l :: t) ++ [c] := by
  induction t generalizing l with
  | nil => simp [intercalate_singleton]
  | cons l1 t ih =>
    rw [List.map_cons, List.flatten_cons, ih l1, intercalate_cons_cons]
    simp

theorem TrimSuffix_append_newline (cs : List Char) :
    strings.TrimSuffix (String.mk (cs ++ ['\n'])) "\n" = String.mk cs := by
  have hs : ("\n" : String).data = ['\n'] := rfl
  have hsuf : strings.HasSuffix (String.mk (cs ++ ['\n'])) "\n" = true := by
    simp only [strings.HasSuffix, hs, decide_eq_true_eq]
    exact List.suffix_append cs ['\n']
  unfold strings.TrimSuffix
  rw [if_pos hsuf, hs]
  simp

/-- The text `formatUnifiedDiff` returns: the header line and the operation lines,
joined by newlines. -/
theorem formatUnifiedDiff_eq (diffs : List diffLine) (oldLines newLines : List String) :
    formatUnifiedDiff diffs oldLines newLines =
      String.mk (List.intercalate ['\n']
        ((headerLine oldLines.length newLines.length).data ::
          diffs.map (fun d => (opLine d).data))) := by
  have hh : ("@@ -" ++ fmtInt 1 ++ "," ++ fmtInt oldLines.length ++ " +" ++ fmtInt 1 ++ ","
      ++ fmtInt newLines.length ++ " @@\n" : String).data =
      (headerLine oldLines.length newLines.length).data ++ ['\n'] := by
    have h1 : fmtInt 1 = "1" := by decide
    rw [h1]
    simp only [headerLine, fmtInt, String.data_append]
    simp
  unfold formatUnifiedDiff
  simp only
  rw [← TrimSuffix_append_newline]
  congr 1
  apply String.ext
  rw [foldl_formatLine_data, hh]
  have hflat := flatten_map_append_sep '\n' (headerLine oldLines.length newLines.length).data
    (diffs.map (fun d => (opLine d).data))
  rw [← hflat]
  simp [List.map_map, Function.comp_def]

/-! ## The formatted output of `CompareStrings` -/

theorem computeDiff_op (oldLines newLines : List String) :
    ∀ d ∈ computeDiff oldLines newLines, d.op = ' ' ∨ d.op = '-' ∨ d.op = '+' := by
  intro d hd
  rw [computeDiff_eq_align] at hd
  obtain ⟨x, _, rfl⟩ := List.mem_map.mp hd
  cases x <;> simp [DiffOp.toDiffLine]

theorem computeDiff_text_mem (oldLines newLines : List String) :
    ∀ d ∈ computeDiff oldLines newLines, d.text ∈ oldLines ∨ d.text ∈ newLines := by
  intro d hd
  have hold := oldSide_align oldLines newLines
  have hnew := newSide_align oldLines newLines
  rw [← computeDiff_eq_align] at hold hnew
  rcases computeDiff_op oldLines newLines d hd with h | h | h
  · left
    rw [← hold]
    exact List.mem_map.mpr ⟨d, List.mem_filter.mpr ⟨hd, by simp [h]⟩, rfl⟩
  · left
    rw [← hold]
    exact List.mem_map.mpr ⟨d, List.mem_filter.mpr ⟨hd, by simp [h]⟩, rfl⟩
  · right
    rw [← hnew]
    exact List.mem_map.mpr ⟨d, List.mem_filter.mpr ⟨hd, by simp [h]⟩, rfl⟩

/-- The output line of an operation of `CompareStrings` contains no newline. -/
theorem opLine_no_newline (old new : String) :
    ∀ d ∈ computeDiff (strings.Split old "\n") (strings.Split new "\n"),
      '\n' ∉ (opLine d).data := by
  intro d hd
  have htext : '\n' ∉ d.text.data := by
    rcases computeDiff_text_mem _ _ d hd with h | h
    · exact Split_newline_lines old d.text h
    · exact Split_newline_lines new d.text h
  have hop : ¬ '\n' = d.op := by
    rcases computeDiff_op _ _ d hd with h | h | h <;> rw [h] <;> decide
  rw [opLine_data]
  intro hm
  rcases List.mem_cons.mp hm with h1 | h1
  · exact hop h1
  · exact htext h1

/-- The lines of the text `formatUnifiedDiff` makes of the operations of two documents. -/
theorem Split_formatUnifiedDiff (old new : String) :
    strings.Split
        (formatUnifiedDiff (computeDiff (strings.Split old "\n") (strings.Split new "\n"))
          (strings.Split old "\n") (strings.Split new "\n")) "\n" =
      headerLine (strings.Split old "\n").length (strings.Split new "\n").length ::
        (computeDiff (strings.Split old "\n") (strings.Split new "\n")).map opLine := by
  rw [formatUnifiedDiff_eq, Split_newline_eq]
  simp only
  rw [splitAux_intercalate]
  · simp [List.map_map, Function.comp_def]
  · intro p hp
    rcases List.mem_cons.mp hp with h | h
    · rw [h]
      exact headerLine_no_newline _ _
    · obtain ⟨d, hd, rfl⟩ := List.mem_map.mp h
      exact opLine_no_newline old new d hd

theorem getLast?_intercalate (c : Char) (l : List Char) (t : List (List Char)) :
    (∀ p ∈ l :: t, p ≠ [] ∧ c ∉ p) →
      ∃ y, (List.intercalate [c] (l :: t)).getLast? = some y ∧ y ≠ c := by
  induction t generalizing l with
  | nil =>
    intro h
    obtain ⟨hne, hc⟩ := h l (by simp)
    refine ⟨l.getLast hne, ?_, ?_⟩
    · rw [intercalate_singleton, List.getLast?_eq_getLast _ hne]
    · intro hy
      exact hc (hy ▸ List.getLast_mem hne)
  | cons l1 t ih =>
    intro h
    obtain ⟨y, hy, hyc⟩ := ih l1 (fun p hp => h p (List.mem_cons_of_mem l hp))
    refine ⟨y, ?_, hyc⟩
    rw [intercalate_cons_cons, List.getLast?_append, hy]
    rfl

/-- C6: for every pair of different documents, the first line of the output of
`CompareStrings` is exactly `@@ -1,N +1,M @@`, where `N` and `M` are the numbers of
lines of `old` and of `new` (the lengths of the two documents split on the newline),
wherever the changes are. -/
theorem CompareStrings_header (old new : String) (h : old ≠ new) :
    ∃ r : DiffResult, (CompareStrings old new).1 = some r ∧
      (strings.Split r.String "\n").head? =
        some ("@@ -1," ++ toString (strings.Split old "\n").length ++ " +1," ++
          toString (strings.Split new "\n").length ++ " @@") := by
  refine ⟨_, congrArg Prod.fst (CompareStrings_of_ne old new h), ?_⟩
  simp only [DiffResult.String]
  rw [Split_formatUnifiedDiff, List.head?_cons]
  rfl

/-- Witness of C6 on the documents `"a\nb"` and `"a"`. -/
theorem CompareStrings_header_witness :
    "a\nb" ≠ "a" ∧
    ∃ r : DiffResult, (CompareStrings "a\nb" "a").1 = some r ∧
      (strings.Split r.String "\n").head? =
        some ("@@ -1," ++ toString (strings.Split "a\nb" "\n").length ++ " +1," ++
          toString (strings.Split "a" "\n").length ++ " @@") :=
  ⟨by decide, CompareStrings_header "a\nb" "a" (by decide)⟩

/-- C7: for every pair of different documents, the output of `CompareStrings`, split on
the newline, is the header line followed by exactly one line per operation of the diff,
in the order of the operations; the line of an operation is its prefix rune (a space
for Context, `-` for Deletion, `+` for Addition, and no other rune occurs) followed
at once by the text of the operation. -/
theorem CompareStrings_lines (old new : String) (h : old ≠ new) :
    ∃ r : DiffResult, (CompareStrings old new).1 = some r ∧
      strings.Split r.String "\n" =
        headerLine (strings.Split old "\n").length (strings.Split new "\n").length ::
          (computeDiff (strings.Split old "\n") (strings.Split new "\n")).map
            (fun d => String.singleton d.op ++ d.text) ∧
      ∀ d ∈ computeDiff (strings.Split old "\n") (strings.Split new "\n"),
        d.op = ' ' ∨ d.op = '-' ∨ d.op = '+' := by
  refine ⟨_, congrArg Prod.fst (CompareStrings_of_ne old new h), ?_, computeDiff_op _ _⟩
  simp only [DiffResult.String]
  rw [Split_formatUnifiedDiff]
  rfl

/-- Witness of C7 on the documents `"x\n\ny"` and `"x\nz\n"`. -/
theorem CompareStrings_lines_witness :
    "x\n\ny" ≠ "x\nz\n" ∧
    ∃ r : DiffResult, (CompareStrings "x\n\ny" "x\nz\n").1 = some r ∧
      strings.Split r.String "\n" =
        headerLine (strings.Split "x\n\ny" "\n").length (strings.Split "x\nz\n" "\n").length ::
          (computeDiff (strings.Split "x\n\ny" "\n") (strings.Split "x\nz\n" "\n")).map
            (fun d => String.singleton d.op ++ d.text) ∧
      ∀ d ∈ computeDiff (strings.Split "x\n\ny" "\n") (strings.Split "x\nz\n" "\n"),
        d.op = ' ' ∨ d.op = '-' ∨ d.op = '+' :=
  ⟨by decide, CompareStrings_lines "x\n\ny" "x\nz\n" (by decide)⟩

/-- C8: for every pair of documents, the string returned by `CompareStrings` does not
end with a newline, also when the last operation of the diff has an empty text. -/
theorem CompareStrings_no_trailing_newline (old new : String) :
    ∃ r : DiffResult, (CompareStrings old new).1 = some r ∧
      strings.HasSuffix r.String "\n" = false := by
  by_cases h : old = new
  · subst h
    refine ⟨_, congrArg Prod.fst (CompareStrings_of_eq old), ?_⟩
    decide
  · refine ⟨_, congrArg Prod.fst (CompareStrings_of_ne old new h), ?_⟩
    have hs : ("\n" : String).data = ['\n'] := rfl
    simp only [DiffResult.String, strings.HasSuffix, hs, decide_eq_false_iff_not]
    rw [formatUnifiedDiff_eq]
    intro hsuf
    obtain ⟨t, ht⟩ := hsuf
    obtain ⟨y, hy, hyc⟩ := getLast?_intercalate '\n'
      (headerLine (strings.Split old "\n").length (strings.Split new "\n").length).data
      ((computeDiff (strings.Split old "\n") (strings.Split new "\n")).map
        (fun d => (opLine d).data))
      (by
        intro p hp
        rcases List.mem_cons.mp hp with h1 | h1
        · rw [h1]
          refine ⟨?_, headerLine_no_newline _ _⟩
          simp [headerLine, String.data_append]
        · obtain ⟨d, hd, rfl⟩ := List.mem_map.mp h1
          refine ⟨?_, opLine_no_newline old new d hd⟩
          rw [opLine_data]
          exact List.cons_ne_nil _ _)
    simp only at ht
    rw [← ht, List.getLast?_append] at hy
    simp only [List.getLast?_singleton, Option.or_some, Option.some.injEq] at hy
    exact hyc hy.symm

/-! ## The step policy on particular shapes of input -/

/-- C11: tie-break.  In a state whose two current lines differ, when the old line occurs
later in the new sequence and the new line also occurs later in the old sequence, the
loop body appends `Addition(new line)` and advances the new cursor only: rule (b) is
taken, and no Deletion is emitted for that step. -/
theorem loopStep_tie_break (oldLines newLines : List String) (st : loopState)
    (hi : st.oldIndex < oldLines.length) (hj : st.newIndex < newLines.length)
    (hne : oldLines.get ⟨st.oldIndex, hi⟩ ≠ newLines.get ⟨st.newIndex, hj⟩)
    (hold : oldLines.get ⟨st.oldIndex, hi⟩ ∈ newLines.drop (st.newIndex + 1))
    (_hnew : newLines.get ⟨st.newIndex, hj⟩ ∈ oldLines.drop (st.oldIndex + 1)) :
    loopStep oldLines newLines st =
      some { oldIndex := st.oldIndex, newIndex := st.newIndex + 1,
             diffs := st.diffs ++ [{ text := newLines.get ⟨st.newIndex, hj⟩, op := '+' }] } := by
  have ho : oldLines.drop st.oldIndex =
      oldLines.get ⟨st.oldIndex, hi⟩ :: oldLines.drop (st.oldIndex + 1) :=
    List.drop_eq_getElem_cons hi
  have hn : newLines.drop st.newIndex =
      newLines.get ⟨st.newIndex, hj⟩ :: newLines.drop (st.newIndex + 1) :=
    List.drop_eq_getElem_cons hj
  rw [loopStep_cons_cons oldLines newLines st _ _ _ _ ho hn, if_neg hne, if_pos hold]

/-- Witness of C11: old lines `a, b`, new lines `b, a`, both cursors at 0. -/
theorem loopStep_tie_break_witness :
    loopStep ["a", "b"] ["b", "a"] ⟨0, 0, []⟩ = some ⟨0, 1, [⟨"b", '+'⟩]⟩ :=
  loopStep_tie_break ["a", "b"] ["b", "a"] ⟨0, 0, []⟩ (by decide) (by decide) (by decide)
    (by decide) (by decide)

theorem align_no_deletion_of_sublist (oldLines newLines : List String) :
    oldLines.Sublist newLines → ∀ x ∈ align oldLines newLines, ∀ t, x ≠ DiffOp.Deletion t := by
  induction oldLines, newLines using align.induct with
  | case1 => intro _ x hx; simp [align] at hx
  | case2 o os _ => intro h; cases h
  | case3 n ns ih =>
    intro _ x hx t
    rw [align] at hx
    rcases List.mem_cons.mp hx with h1 | h1
    · rw [h1]; exact fun h => DiffOp.noConfusion h
    · exact ih (List.nil_sublist ns) x h1 t
  | case4 os o ns ih =>
    intro h x hx t
    rw [align, if_pos rfl] at hx
    rcases List.mem_cons.mp hx with h1 | h1
    · rw [h1]; exact fun h => DiffOp.noConfusion h
    · exact ih (List.cons_sublist_cons.mp h) x h1 t
  | case5 o os n ns h1 h2 ih =>
    intro h x hx t
    rw [align, if_neg h1, if_pos h2] at hx
    have hsub : (o :: os).Sublist ns := by
      cases h with
      | cons _ h3 => exact h3
      | cons₂ _ _ => exact absurd rfl h1
    rcases List.mem_cons.mp hx with h3 | h3
    · rw [h3]; exact fun h => DiffOp.noConfusion h
    · exact ih hsub x h3 t
  | case6 o os n ns h1 h2 _ _ =>
    intro h
    have hsub : (o :: os).Sublist ns := by
      cases h with
      | cons _ h3 => exact h3
      | cons₂ _ _ => exact absurd rfl h1
    exact absurd (hsub.subset (List.mem_cons_self o os)) h2
  | case7 o os n ns h1 h2 _ _ =>
    intro h
    have hsub : (o :: os).Sublist ns := by
      cases h with
      | cons _ h3 => exact h3
      | cons₂ _ _ => exact absurd rfl h1
    exact absurd (hsub.subset (List.mem_cons_self o os)) h2

theorem computeDiff_no_deletion_of_sublist (oldLines newLines : List String)
    (h : oldLines.Sublist newLines) : ∀ d ∈ computeDiff oldLines newLines, d.op ≠ '-' := by
  intro d hd
  rw [computeDiff_eq_align] at hd
  obtain ⟨x, hx, rfl⟩ := List.mem_map.mp hd
  have hnd := align_no_deletion_of_sublist oldLines newLines h x hx
  cases x with
  | Context t => simp [DiffOp.toDiffLine]
  | Deletion t => exact absurd rfl (hnd t)
  | Addition t => simp [DiffOp.toDiffLine]

/-- C12: pure insertion.  When `oldLines` is a subsequence of `newLines` (the new lines
are the old ones with lines inserted), `computeDiff` emits no Deletion: every operation
is a Context or an Addition, the Context texts are exactly the old lines in order, and
the Context and Addition texts together are the new lines in order. -/
theorem computeDiff_pure_insertion (oldLines newLines : List String)
    (h : oldLines.Sublist newLines) :
    (∀ d ∈ computeDiff oldLines newLines, d.op ≠ '-') ∧
    (∀ d ∈ computeDiff oldLines newLines, d.op = ' ' ∨ d.op = '+') ∧
    ((computeDiff oldLines newLines).filter (fun d => d.op = ' ')).map diffLine.text
      = oldLines ∧
    newSide (computeDiff oldLines newLines) = newLines := by
  have hnd := computeDiff_no_deletion_of_sublist oldLines newLines h
  refine ⟨hnd, ?_, ?_, ?_⟩
  · intro d hd
    rcases computeDiff_op oldLines newLines d hd with h1 | h1 | h1
    · exact Or.inl h1
    · exact absurd h1 (hnd d hd)
    · exact Or.inr h1
  · have hold := oldSide_align oldLines newLines
    rw [← computeDiff_eq_align] at hold
    refine Eq.trans ?_ hold
    rw [oldSide]
    congr 1
    apply List.filter_congr
    intro d hd
    have := hnd d hd
    simp [this]
  · rw [computeDiff_eq_align]
    exact newSide_align oldLines newLines

/-- Witness of C12 on scenario 4 of the specification. -/
theorem computeDiff_pure_insertion_witness :
    (∀ d ∈ computeDiff ["line1", "line3", "line5"]
        ["line1", "line2", "line3", "line4", "line5"], d.op ≠ '-') ∧
    (∀ d ∈ computeDiff ["line1", "line3", "line5"]
        ["line1", "line2", "line3", "line4", "line5"], d.op = ' ' ∨ d.op = '+') ∧
    ((computeDiff ["line1", "line3", "line5"]
        ["line1", "line2", "line3", "line4", "line5"]).filter
          (fun d => d.op = ' ')).map diffLine.text = ["line1", "line3", "line5"] ∧
    newSide (computeDiff ["line1", "line3", "line5"]
        ["line1", "line2", "line3", "line4", "line5"]) =
      ["line1", "line2", "line3", "line4", "line5"] :=
  computeDiff_pure_insertion ["line1", "line3", "line5"]
    ["line1", "line2", "line3", "line4", "line5"] (by decide)

/-- Against C13 as stated: the new lines `b, a` are the old lines `a, b, a` with the first
line removed, and `computeDiff` emits an Addition all the same (the old head `a` occurs
later in the new lines, so rule (b) is taken before rule (c)). -/
theorem computeDiff_pure_removal_counterexample :
    ¬ ∀ oldLines newLines : List String, newLines.Sublist oldLines →
        ∀ d ∈ computeDiff oldLines newLines, d.op ≠ '+' := by
  intro h
  exact h ["a", "b", "a"] ["b", "a"] (by decide) ⟨"b", '+'⟩ (by decide) rfl

theorem PureRemoval.sublist {oldLines newLines : List String}
    (h : PureRemoval oldLines newLines) : newLines.Sublist oldLines := by
  induction h with
  | nil => exact List.Sublist.slnil
  | keep o _ ih => exact ih.cons₂ o
  | drop o _ _ ih => exact ih.cons o

/-- Removing lines from a sequence without repeated lines is a `PureRemoval`. -/
theorem PureRemoval.of_sublist_nodup {oldLines newLines : List String}
    (h : newLines.Sublist oldLines) : oldLines.Nodup → PureRemoval oldLines newLines := by
  induction h with
  | slnil => intro _; exact PureRemoval.nil
  | cons a h1 ih =>
    intro hnd
    have hn := List.nodup_cons.mp hnd
    exact PureRemoval.drop a (fun hm => hn.1 (h1.subset hm)) (ih hn.2)
  | cons₂ a _ ih =>
    intro hnd
    exact PureRemoval.keep a (ih (List.nodup_cons.mp hnd).2)

theorem align_no_addition_of_pureRemoval (oldLines newLines : List String) :
    PureRemoval oldLines newLines →
      ∀ x ∈ align oldLines newLines, ∀ t, x ≠ DiffOp.Addition t := by
  induction oldLines, newLines using align.induct with
  | case1 => intro _ x hx; simp [align] at hx
  | case2 o os ih =>
    intro h x hx t
    rw [align] at hx
    have hrest : PureRemoval os [] := by
      cases h with
      | drop _ _ h1 => exact h1
    rcases List.mem_cons.mp hx with h1 | h1
    · rw [h1]; exact fun h => DiffOp.noConfusion h
    · exact ih hrest x h1 t
  | case3 n ns _ => intro h; cases h
  | case4 os o ns ih =>
    intro h x hx t
    rw [align, if_pos rfl] at hx
    have hrest : PureRemoval os ns := by
      cases h with
      | keep _ h1 => exact h1
      | drop _ h1 _ => exact absurd (List.mem_cons_self o ns) h1
    rcases List.mem_cons.mp hx with h1 | h1
    · rw [h1]; exact fun h => DiffOp.noConfusion h
    · exact ih hrest x h1 t
  | case5 o os n ns h1 h2 _ =>
    intro h
    cases h with
    | keep _ _ => exact absurd rfl h1
    | drop _ h3 _ => exact absurd (List.mem_cons_of_mem n h2) h3
  | case6 o os n ns h1 h2 h3 ih =>
    intro h x hx t
    rw [align, if_neg h1, if_neg h2, if_pos h3] at hx
    have hrest : PureRemoval os (n :: ns) := by
      cases h with
      | keep _ _ => exact absurd rfl h1
      | drop _ _ h4 => exact h4
    rcases List.mem_cons.mp hx with h4 | h4
    · rw [h4]; exact fun h => DiffOp.noConfusion h
    · exact ih hrest x h4 t
  | case7 o os n ns h1 h2 h3 _ =>
    intro h
    cases h with
    | keep _ _ => exact absurd rfl h1
    | drop _ _ h4 => exact absurd (h4.sublist.subset (List.mem_cons_self n ns)) h3

theorem computeDiff_no_addition_of_pureRemoval (oldLines newLines : List String)
    (h : PureRemoval oldLines newLines) :
    ∀ d ∈ computeDiff oldLines newLines, d.op ≠ '+' := by
  intro d hd
  rw [computeDiff_eq_align] at hd
  obtain ⟨x, hx, rfl⟩ := List.mem_map.mp hd
  have hna := align_no_addition_of_pureRemoval oldLines newLines h x hx
  cases x with
  | Context t => simp [DiffOp.toDiffLine]
  | Deletion t => simp [DiffOp.toDiffLine]
  | Addition t => exact absurd rfl (hna t)

/-- C13, amended: pure removal.  When `newLines` is `oldLines` with lines removed, none of
the removed lines occurring among the new lines after the place it is removed from (as
is the case whenever no line occurs twice in `oldLines`), `computeDiff` emits no
Addition: every operation is a Context or a Deletion, the Context texts are exactly the
new lines in order, and the Context and Deletion texts together are the old lines in
order. -/
theorem computeDiff_pure_removal (oldLines newLines : List String)
    (h : PureRemoval oldLines newLines ∨ (newLines.Sublist oldLines ∧ oldLines.Nodup)) :
    (∀ d ∈ computeDiff oldLines newLines, d.op ≠ '+') ∧
    (∀ d ∈ computeDiff oldLines newLines, d.op = ' ' ∨ d.op = '-') ∧
    ((computeDiff oldLines newLines).filter (fun d => d.op = ' ')).map diffLine.text
      = newLines ∧
    oldSide (computeDiff oldLines newLines) = oldLines := by
  have hpr : PureRemoval oldLines newLines :=
    h.elim id (fun h2 => PureRemoval.of_sublist_nodup h2.1 h2.2)
  have hna := computeDiff_no_addition_of_pureRemoval oldLines newLines hpr
  refine ⟨hna, ?_, ?_, ?_⟩
  · intro d hd
    rcases computeDiff_op oldLines newLines d hd with h1 | h1 | h1
    · exact Or.inl h1
    · exact Or.inr h1
    · exact absurd h1 (hna d hd)
  · have hnew := newSide_align oldLines newLines
    rw [← computeDiff_eq_align] at hnew
    refine Eq.trans ?_ hnew
    rw [newSide]
    congr 1
    apply List.filter_congr
    intro d hd
    have := hna d hd
    simp [this]
  · rw [computeDiff_eq_align]
    exact oldSide_align oldLines newLines

/-- Witness of the amended C13 on scenario 5 of the specification. -/
theorem computeDiff_pure_removal_witness :
    (∀ d ∈ computeDiff ["a", "b", "c", "d", "e"] ["a", "c", "e"], d.op ≠ '+') ∧
    (∀ d ∈ computeDiff ["a", "b", "c", "d", "e"] ["a", "c", "e"], d.op = ' ' ∨ d.op = '-') ∧
    ((computeDiff ["a", "b", "c", "d", "e"] ["a", "c", "e"]).filter
        (fun d => d.op = ' ')).map diffLine.text = ["a", "c", "e"] ∧
    oldSide (computeDiff ["a", "b", "c", "d", "e"] ["a", "c", "e"]) =
      ["a", "b", "c", "d", "e"] :=
  computeDiff_pure_removal ["a", "b", "c", "d", "e"] ["a", "c", "e"]
    (Or.inr ⟨by decide, by decide⟩)

theorem align_self (ls : List String) :
    align ls ls = ls.map DiffOp.Context := by
  induction ls with
  | nil => simp [align]
  | cons l ls ih => rw [align, if_pos rfl, ih, List.map_cons]

theorem align_single_change (pre post : List String) (x y : String)
    (hxy : x ≠ y) (hx : x ∉ post) (hy : y ∉ post) :
    align (pre ++ x :: post) (pre ++ y :: post) =
      pre.map DiffOp.Context ++
        DiffOp.Deletion x :: DiffOp.Addition y :: post.map DiffOp.Context := by
  induction pre with
  | nil =>
    rw [List.nil_append, List.nil_append, align, if_neg hxy, if_neg hx, if_neg hy, align_self]
    rfl
  | cons p pre ih =>
    rw [List.cons_append, List.cons_append, align, if_pos rfl, ih]
    rfl

theorem take_eq_of_agree {α : Type} (l1 l2 : List α) (k : Nat)
    (h : ∀ i, i ≠ k → l1[i]? = l2[i]?) : l1.take k = l2.take k := by
  apply List.ext_getElem?
  intro i
  rw [List.getElem?_take, List.getElem?_take]
  by_cases hi : i < k
  · rw [if_pos hi, if_pos hi]
    exact h i (by omega)
  · rw [if_neg hi, if_neg hi]

theorem drop_eq_of_agree {α : Type} (l1 l2 : List α) (k : Nat)
    (h : ∀ i, i ≠ k → l1[i]? = l2[i]?) : l1.drop (k + 1) = l2.drop (k + 1) := by
  apply List.ext_getElem?
  intro i
  rw [List.getElem?_drop, List.getElem?_drop]
  exact h (k + 1 + i) (by omega)

theorem computeDiff_single_change (oldLines newLines : List String) (k : Nat)
    (hk : k < oldLines.length) (hk2 : k < newLines.length)
    (hagree : ∀ i, i ≠ k → oldLines[i]? = newLines[i]?)
    (hx : oldLines.get ⟨k, hk⟩ ∉ newLines) (hy : newLines.get ⟨k, hk2⟩ ∉ oldLines) :
    computeDiff oldLines newLines =
      (oldLines.take k).map (fun t => { text := t, op := ' ' }) ++
        { text := oldLines.get ⟨k, hk⟩, op := '-' } ::
        { text := newLines.get ⟨k, hk2⟩, op := '+' } ::
        (oldLines.drop (k + 1)).map (fun t => { text := t, op := ' ' }) := by
  have ho : oldLines = oldLines.take k ++ oldLines.get ⟨k, hk⟩ :: oldLines.drop (k + 1) := by
    conv_lhs => rw [← List.take_append_drop k oldLines, List.drop_eq_getElem_cons hk]
    rfl
  have hn : newLines = oldLines.take k ++ newLines.get ⟨k, hk2⟩ :: oldLines.drop (k + 1) := by
    conv_lhs => rw [← List.take_append_drop k newLines, List.drop_eq_getElem_cons hk2]
    rw [take_eq_of_agree oldLines newLines k hagree, drop_eq_of_agree oldLines newLines k hagree]
    rfl
  have hxy : oldLines.get ⟨k, hk⟩ ≠ newLines.get ⟨k, hk2⟩ :=
    fun h => hx (h ▸ List.get_mem newLines k hk2)
  have hxp : oldLines.get ⟨k, hk⟩ ∉ oldLines.drop (k + 1) := by
    intro hm
    rw [drop_eq_of_agree oldLines newLines k hagree] at hm
    exact hx (List.mem_of_mem_drop hm)
  have hyp : newLines.get ⟨k, hk2⟩ ∉ oldLines.drop (k + 1) :=
    fun hm => hy (List.mem_of_mem_drop hm)
  have hal := align_single_change (oldLines.take k) (oldLines.drop (k + 1))
    (oldLines.get ⟨k, hk⟩) (newLines.get ⟨k, hk2⟩) hxy hxp hyp
  rw [← ho, ← hn] at hal
  rw [computeDiff_eq_align, hal]
  simp [DiffOp.toDiffLine, List.map_map, Function.comp_def]

theorem Split_newline_single (a : String) (h : '\n' ∉ a.data) :
    strings.Split a "\n" = [a] := by
  rw [Split_newline_eq, splitAux_of_not_mem '\n' a.data [] h]
  rfl

theorem computeDiff_pair (a b : String) (h : a ≠ b) :
    computeDiff [a] [b] = [{ text := a, op := '-' }, { text := b, op := '+' }] := by
  rw [computeDiff_eq_align, align, if_neg h, if_neg (List.not_mem_nil a),
    if_neg (List.not_mem_nil b), align]
  rfl

theorem CompareStrings_single_lines (a b : String) (ha : '\n' ∉ a.data) (hb : '\n' ∉ b.data)
    (h : a ≠ b) :
    CompareStrings a b =
      (some { differences := true, output := "@@ -1,1 +1,1 @@\n-" ++ a ++ "\n+" ++ b },
        none) := by
  rw [CompareStrings_of_ne a b h, Split_newline_single a ha, Split_newline_single b hb,
    computeDiff_pair a b h, formatUnifiedDiff_eq]
  have hh : (headerLine 1 1).data = "@@ -1,1 +1,1 @@".data := by decide
  congr 3
  apply String.ext
  simp only [List.length_singleton, List.map_cons, List.map_nil, intercalate_cons_cons,
    intercalate_singleton, opLine_data, hh, String.data_append]
  simp

/-- C14: single-line modification.  For two line sequences of equal length that agree at
every position except `k`, where `old[k]` does not occur in the new lines and `new[k]`
does not occur in the old lines, `computeDiff` returns a Context for each line before
`k`, then `Deletion(old[k])` immediately followed by `Addition(new[k])`, then a Context
for each line after `k`; and for two different single-line documents `a` and `b` the
output of `CompareStrings` is exactly `@@ -1,1 +1,1 @@`, `-a`, `+b` on three lines. -/
theorem computeDiff_single_line_modification (oldLines newLines : List String) (k : Nat)
    (hlen : oldLines.length = newLines.length)
    (hk : k < oldLines.length) (hk2 : k < newLines.length)
    (hagree : ∀ i, i < oldLines.length → i ≠ k → oldLines[i]? = newLines[i]?)
    (hx : oldLines.get ⟨k, hk⟩ ∉ newLines) (hy : newLines.get ⟨k, hk2⟩ ∉ oldLines) :
    computeDiff oldLines newLines =
      (oldLines.take k).map (fun t => { text := t, op := ' ' }) ++
        { text := oldLines.get ⟨k, hk⟩, op := '-' } ::
        { text := newLines.get ⟨k, hk2⟩, op := '+' } ::
        (oldLines.drop (k + 1)).map (fun t => { text := t, op := ' ' }) ∧
    ∀ a b : String, '\n' ∉ a.data → '\n' ∉ b.data → a ≠ b →
      ∃ r : DiffResult, (CompareStrings a b).1 = some r ∧
        r.String = "@@ -1,1 +1,1 @@\n-" ++ a ++ "\n+" ++ b := by
  constructor
  · apply computeDiff_single_change oldLines newLines k hk hk2 _ hx hy
    intro i hik
    by_cases hi : i < oldLines.length
    · exact hagree i hi hik
    · rw [List.getElem?_eq_none (by omega), List.getElem?_eq_none (by omega)]
  · intro a b ha hb hab
    exact ⟨_, congrArg Prod.fst (CompareStrings_single_lines a b ha hb hab), rfl⟩

/-- Witness of C14 on scenario 3 of the specification, and on `hello` and `world`. -/
theorem computeDiff_single_line_modification_witness :
    computeDiff ["line1", "line2", "line3"] ["line1", "line2_modified", "line3"] =
      [⟨"line1", ' '⟩, ⟨"line2", '-'⟩, ⟨"line2_modified", '+'⟩, ⟨"line3", ' '⟩] ∧
    ∃ r : DiffResult, (CompareStrings "hello" "world").1 = some r ∧
      r.String = "@@ -1,1 +1,1 @@\n-" ++ "hello" ++ "\n+" ++ "world" :=
  have h := computeDiff_single_line_modification ["line1", "line2", "line3"]
    ["line1", "line2_modified", "line3"] 1 (by decide) (by decide) (by decide) (by decide)
    (by decide) (by decide)
  ⟨h.1, h.2 "hello" "world" (by decide) (by decide) (by decide)⟩

/-! ## Termination of the alignment loop -/

/-- What one iteration of the loop does to the cursors: each stays or advances by one, a
cursor that advances was inside its sequence, and at least one advances. -/
theorem loopStep_cursors (oldLines newLines : List String) (st st1 : loopState)
    (h : loopStep oldLines newLines st = some st1) :
    (st1.oldIndex = st.oldIndex ∨
      (st1.oldIndex = st.oldIndex + 1 ∧ st.oldIndex < oldLines.length)) ∧
    (st1.newIndex = st.newIndex ∨
      (st1.newIndex = st.newIndex + 1 ∧ st.newIndex < newLines.length)) ∧
    st.oldIndex + st.newIndex < st1.oldIndex + st1.newIndex := by
  unfold loopStep at h
  split_ifs at h with hc hb h1 h2 h3 h4
  all_goals
    cases h
    dsimp only
    omega

theorem loopRun_of_none (oldLines newLines : List String) (bound : Nat) (st : loopState)
    (h : loopStep oldLines newLines st = none) : loopRun oldLines newLines bound st = st := by
  cases bound with
  | zero => rfl
  | succ b => simp [loopRun, h]

theorem loopRun_succ_of_some (oldLines newLines : List String) (bound : Nat)
    (st st1 : loopState) (h : loopStep oldLines newLines st = some st1) :
    loopRun oldLines newLines (bound + 1) st = loopRun oldLines newLines bound st1 := by
  simp [loopRun, h]

theorem loopRun_add (oldLines newLines : List String) (a b : Nat) :
    ∀ st : loopState, loopRun oldLines newLines (a + b) st =
      loopRun oldLines newLines b (loopRun oldLines newLines a st) := by
  induction a with
  | zero => intro st; simp [loopRun]
  | succ a ih =>
    intro st
    cases h : loopStep oldLines newLines st with
    | none =>
      rw [loopRun_of_none _ _ _ _ h, loopRun_of_none _ _ _ _ h, loopRun_of_none _ _ _ _ h]
    | some st1 =>
      rw [Nat.add_right_comm, loopRun_succ_of_some _ _ _ _ _ h, loopRun_succ_of_some _ _ _ _ _ h]
      exact ih st1

theorem loopRun_cursors_le (oldLines newLines : List String) (bound : Nat) :
    ∀ st : loopState, st.oldIndex ≤ oldLines.length → st.newIndex ≤ newLines.length →
      (loopRun oldLines newLines bound st).oldIndex ≤ oldLines.length ∧
      (loopRun oldLines newLines bound st).newIndex ≤ newLines.length := by
  induction bound with
  | zero => intro st h1 h2; exact ⟨h1, h2⟩
  | succ b ih =>
    intro st h1 h2
    cases h : loopStep oldLines newLines st with
    | none => rw [loopRun_of_none _ _ _ _ h]; exact ⟨h1, h2⟩
    | some st1 =>
      rw [loopRun_succ_of_some _ _ _ _ _ h]
      have hc := loopStep_cursors oldLines newLines st st1 h
      exact ih st1 (by omega) (by omega)

/-- The loop leaves after a number of iterations that the lines still to be read bound. -/
theorem loopRun_exit_count (oldLines newLines : List String) (bound : Nat) :
    ∀ st : loopState,
      (oldLines.length - st.oldIndex) + (newLines.length - st.newIndex) ≤ bound →
      ∃ k, k ≤ bound ∧
        (∀ m, m < k → loopStep oldLines newLines (loopRun oldLines newLines m st) ≠ none) ∧
        loopStep oldLines newLines (loopRun oldLines newLines k st) = none := by
  induction bound with
  | zero =>
    intro st hb
    refine ⟨0, Nat.le_refl 0, fun m hm => absurd hm (Nat.not_lt_zero m), ?_⟩
    unfold loopRun loopStep
    rw [dif_neg (by omega)]
  | succ b ih =>
    intro st hb
    cases h : loopStep oldLines newLines st with
    | none =>
      exact ⟨0, Nat.zero_le _, fun m hm => absurd hm (Nat.not_lt_zero m), by simpa [loopRun] using h⟩
    | some st1 =>
      have hc := loopStep_cursors oldLines newLines st st1 h
      obtain ⟨k, hk, hrun, hexit⟩ := ih st1 (by omega)
      refine ⟨k + 1, by omega, ?_, ?_⟩
      · intro m hm
        cases m with
        | zero => simp [loopRun, h]
        | succ m =>
          rw [loopRun_succ_of_some _ _ _ _ _ h]
          exact hrun m (by omega)
      · rw [loopRun_succ_of_some _ _ _ _ _ h]
        exact hexit

/-- C21: `computeDiff` terminates.  In every iteration of its loop each cursor stays
within `0..len` of its sequence, does not decrease, advances by at most one, advances
only from a position inside the sequence (the index read is in bounds), and at least one
cursor advances; the loop condition becomes false after `k` iterations for some
`k ≤ len(oldLines) + len(newLines)`, with both cursors at the end, and what `computeDiff`
returns is the `diffs` of that state. -/
theorem computeDiff_terminates (oldLines newLines : List String) :
    (∀ st st1 : loopState, st.oldIndex ≤ oldLines.length → st.newIndex ≤ newLines.length →
      loopStep oldLines newLines st = some st1 →
        st1.oldIndex ≤ oldLines.length ∧ st1.newIndex ≤ newLines.length ∧
        st.oldIndex ≤ st1.oldIndex ∧ st1.oldIndex ≤ st.oldIndex + 1 ∧
        st.newIndex ≤ st1.newIndex ∧ st1.newIndex ≤ st.newIndex + 1 ∧
        (st.oldIndex < st1.oldIndex ∨ st.newIndex < st1.newIndex) ∧
        (st.oldIndex < st1.oldIndex → st.oldIndex < oldLines.length) ∧
        (st.newIndex < st1.newIndex → st.newIndex < newLines.length)) ∧
    ∃ k, k ≤ oldLines.length + newLines.length ∧
      (∀ m, m < k →
        loopStep oldLines newLines (loopRun oldLines newLines m ⟨0, 0, []⟩) ≠ none) ∧
      loopStep oldLines newLines (loopRun oldLines newLines k ⟨0, 0, []⟩) = none ∧
      (loopRun oldLines newLines k ⟨0, 0, []⟩).oldIndex = oldLines.length ∧
      (loopRun oldLines newLines k ⟨0, 0, []⟩).newIndex = newLines.length ∧
      computeDiff oldLines newLines = (loopRun oldLines newLines k ⟨0, 0, []⟩).diffs := by
  constructor
  · intro st st1 h1 h2 h
    have hc := loopStep_cursors oldLines newLines st st1 h
    refine ⟨?_, ?_, ?_, ?_, ?_, ?_, ?_, ?_, ?_⟩ <;> omega
  · obtain ⟨k, hk, hrun, hexit⟩ := loopRun_exit_count oldLines newLines
      (oldLines.length + newLines.length) ⟨0, 0, []⟩ (by simp)
    have hle := loopRun_cursors_le oldLines newLines k ⟨0, 0, []⟩ (Nat.zero_le _)
      (Nat.zero_le _)
    have hcond : ¬ ((loopRun oldLines newLines k ⟨0, 0, []⟩).oldIndex < oldLines.length ∨
        (loopRun oldLines newLines k ⟨0, 0, []⟩).newIndex < newLines.length) := by
      intro hc
      unfold loopStep at hexit
      rw [dif_pos hc] at hexit
      split_ifs at hexit
    refine ⟨k, hk, hrun, hexit, by omega, by omega, ?_⟩
    obtain ⟨e, he⟩ := Nat.exists_eq_add_of_le hk
    unfold computeDiff
    rw [he, loopRun_add, loopRun_of_none _ _ _ _ hexit]

/-- Witness of C21: one iteration from the start on old lines `a, b` and new lines
`b, a`. -/
theorem computeDiff_terminates_witness :
    (⟨0, 1, [⟨"b", '+'⟩]⟩ : loopState).oldIndex ≤ ["a", "b"].length ∧
    (⟨0, 1, [⟨"b", '+'⟩]⟩ : loopState).newIndex ≤ ["b", "a"].length ∧
    (0 < (⟨0, 1, [⟨"b", '+'⟩]⟩ : loopState).oldIndex ∨
      0 < (⟨0, 1, [⟨"b", '+'⟩]⟩ : loopState).newIndex) :=
  have h := (computeDiff_terminates ["a", "b"] ["b", "a"]).1 ⟨0, 0, []⟩ ⟨0, 1, [⟨"b", '+'⟩]⟩
    (by decide) (by decide) (by decide)
  ⟨h.1, h.2.1, h.2.2.2.2.2.2.1⟩

/-! ## The edit script is not minimal -/

/-- C22: the alignment is not a minimal edit script.  For old lines `b, a, b` and new
lines `a, b` the longest common subsequence has length 2, so an edit script needs only
`3 + 2 - 2 * 2 = 1` Deletion or Addition (the script `-b`, ` a`, ` b` does it), and
`computeDiff` returns more of them. -/
theorem computeDiff_not_minimal :
    ∃ (oldLines newLines : List String) (L : Nat),
      (∃ c : List String, c.Sublist oldLines ∧ c.Sublist newLines ∧ c.length = L) ∧
      (∀ c : List String, c.Sublist oldLines → c.Sublist newLines → c.length ≤ L) ∧
      oldLines.length + newLines.length - 2 * L < editCount (computeDiff oldLines newLines) ∧
      ∃ script : List diffLine, oldSide script = oldLines ∧ newSide script = newLines ∧
        editCount script = oldLines.length + newLines.length - 2 * L := by
  refine ⟨["b", "a", "b"], ["a", "b"], 2, ⟨["a", "b"], by decide, by decide, rfl⟩, ?_,
    by decide, ⟨[⟨"b", '-'⟩, ⟨"a", ' '⟩, ⟨"b", ' '⟩], by decide, by decide, by decide⟩⟩
  intro c _ hc
  exact hc.length_le

/-! ## From the formatted diff back to the documents -/

theorem intercalate_cons_of_ne_nil {α : Type} (sep a : List α) (rest : List (List α))
    (h : rest ≠ []) :
    List.intercalate sep (a :: rest) = a ++ sep ++ List.intercalate sep rest := by
  cases rest with
  | nil => exact absurd rfl h
  | cons b t => exact intercalate_cons_cons sep a b t

/-- Joining the pieces of a split with the separator gives the text back. -/
theorem intercalate_splitAux (c : Char) (l : List Char) :
    ∀ acc : List Char,
      List.intercalate [c] (strings.splitAux [c] l 0 acc) = acc.reverse ++ l := by
  induction l with
  | nil => intro acc; simp [strings.splitAux, intercalate_singleton]
  | cons x cs ih =>
    intro acc
    rw [splitAux_single_cons]
    by_cases hx : x = c
    · rw [if_pos hx, intercalate_cons_of_ne_nil _ _ _ (splitAux_ne_nil [c] cs 0 []), ih [], hx]
      simp
    · rw [if_neg hx, ih (x :: acc)]
      simp

theorem Join_Split_newline (s : String) :
    strings.Join (strings.Split s "\n") "\n" = s := by
  rw [Split_newline_eq]
  unfold strings.Join
  apply String.ext
  have hs : ("\n" : String).data = ['\n'] := rfl
  simp only [hs, List.map_map]
  have hid : (String.data ∘ String.mk) = (id : List Char → List Char) := rfl
  rw [hid, List.map_id, intercalate_splitAux]
  rfl

/-- A document is determined by its lines. -/
theorem eq_of_Split_newline_eq (a b : String)
    (h : strings.Split a "\n" = strings.Split b "\n") : a = b := by
  rw [← Join_Split_newline a, ← Join_Split_newline b, h]

theorem computeDiff_has_edit (old new : String) (h : old ≠ new) :
    ∃ d ∈ computeDiff (strings.Split old "\n") (strings.Split new "\n"),
      d.op = '-' ∨ d.op = '+' := by
  by_contra hno
  have hctx : ∀ d ∈ computeDiff (strings.Split old "\n") (strings.Split new "\n"),
      d.op = ' ' := by
    intro d hd
    rcases computeDiff_op _ _ d hd with h1 | h1 | h1
    · exact h1
    · exact absurd ⟨d, hd, Or.inl h1⟩ hno
    · exact absurd ⟨d, hd, Or.inr h1⟩ hno
  have hold := oldSide_align (strings.Split old "\n") (strings.Split new "\n")
  have hnew := newSide_align (strings.Split old "\n") (strings.Split new "\n")
  rw [← computeDiff_eq_align] at hold hnew
  have h1 : oldSide (computeDiff (strings.Split old "\n") (strings.Split new "\n")) =
      newSide (computeDiff (strings.Split old "\n") (strings.Split new "\n")) := by
    unfold oldSide newSide
    congr 1
    apply List.filter_congr
    intro d hd
    simp [hctx d hd]
  rw [hold, hnew] at h1
  exact h (eq_of_Split_newline_eq old new h1)

/-- C23: whenever `CompareStrings` reports differences the diff shows one.  For two
different documents the operations computed from their lines contain at least one
Deletion or Addition, so they are not empty and not all Context; the return for an empty
diff is not taken, and the result is the formatted diff with `differences` true. -/
theorem CompareStrings_shows_difference (old new : String) (h : old ≠ new) :
    (∃ d ∈ computeDiff (strings.Split old "\n") (strings.Split new "\n"),
      d.op = '-' ∨ d.op = '+') ∧
    (computeDiff (strings.Split old "\n") (strings.Split new "\n")).length ≠ 0 ∧
    ¬ (∀ d ∈ computeDiff (strings.Split old "\n") (strings.Split new "\n"), d.op = ' ') ∧
    CompareStrings old new =
      (some { differences := true,
              output := formatUnifiedDiff
                (computeDiff (strings.Split old "\n") (strings.Split new "\n"))
                (strings.Split old "\n") (strings.Split new "\n") }, none) := by
  obtain ⟨d, hd, hop⟩ := computeDiff_has_edit old new h
  refine ⟨⟨d, hd, hop⟩, ?_, ?_, CompareStrings_of_ne old new h⟩
  · intro h0
    rw [List.length_eq_zero.mp h0] at hd
    cases hd
  · intro hall
    have := hall d hd
    rcases hop with h1 | h1 <;> rw [h1] at this <;> exact absurd this (by decide)

/-- Witness of C23: two documents that differ in a trailing newline only. -/
theorem CompareStrings_shows_difference_witness :
    (∃ d ∈ computeDiff (strings.Split "a\n" "\n") (strings.Split "a" "\n"),
      d.op = '-' ∨ d.op = '+') ∧
    (computeDiff (strings.Split "a\n" "\n") (strings.Split "a" "\n")).length ≠ 0 ∧
    ¬ (∀ d ∈ computeDiff (strings.Split "a\n" "\n") (strings.Split "a" "\n"), d.op = ' ') ∧
    CompareStrings "a\n" "a" =
      (some { differences := true,
              output := formatUnifiedDiff
                (computeDiff (strings.Split "a\n" "\n") (strings.Split "a" "\n"))
                (strings.Split "a\n" "\n") (strings.Split "a" "\n") }, none) :=
  CompareStrings_shows_difference "a\n" "a" (by decide)

theorem keptLines_formatUnifiedDiff (keep : Char) (old new : String) :
    keptLines keep
        (formatUnifiedDiff (computeDiff (strings.Split old "\n") (strings.Split new "\n"))
          (strings.Split old "\n") (strings.Split new "\n")) =
      ((computeDiff (strings.Split old "\n") (strings.Split new "\n")).filter
        (fun d => d.op = ' ' || d.op = keep)).map diffLine.text := by
  unfold keptLines
  rw [Split_formatUnifiedDiff, List.drop_one, List.tail_cons, List.filter_map, List.map_map]
  have hf : ((fun l : String => decide (l.data.head? = some ' ') ||
      decide (l.data.head? = some keep)) ∘ opLine) =
      (fun d : diffLine => decide (d.op = ' ') || decide (d.op = keep)) := by
    funext d
    simp [opLine_data]
  have hg : ((fun l : String => String.mk (l.data.drop 1)) ∘ opLine) = diffLine.text := by
    funext d
    simp [opLine_data]
  rw [hf, hg]

/-- C24: the formatted diff alone determines both documents.  For two different
documents, the lines of the output of `CompareStrings` after the header that start with a
space or `-`, without their first character and joined by newlines, are `old`; those
that start with a space or `+`, treated the same way, are `new`. -/
theorem CompareStrings_recover (old new : String) (h : old ≠ new) :
    ∃ r : DiffResult, (CompareStrings old new).1 = some r ∧
      recover '-' r.String = old ∧ recover '+' r.String = new := by
  have hold := oldSide_align (strings.Split old "\n") (strings.Split new "\n")
  have hnew := newSide_align (strings.Split old "\n") (strings.Split new "\n")
  rw [← computeDiff_eq_align] at hold hnew
  refine ⟨_, congrArg Prod.fst (CompareStrings_of_ne old new h), ?_, ?_⟩
  · simp only [DiffResult.String, recover]
    rw [keptLines_formatUnifiedDiff]
    have : ((computeDiff (strings.Split old "\n") (strings.Split new "\n")).filter
        (fun d => d.op = ' ' || d.op = '-')).map diffLine.text = strings.Split old "\n" := hold
    rw [this, Join_Split_newline]
  · simp only [DiffResult.String, recover]
    rw [keptLines_formatUnifiedDiff]
    have : ((computeDiff (strings.Split old "\n") (strings.Split new "\n")).filter
        (fun d => d.op = ' ' || d.op = '+')).map diffLine.text = strings.Split new "\n" := hnew
    rw [this, Join_Split_newline]

/-- Witness of C24 on scenario 5 of the specification. -/
theorem CompareStrings_recover_witness :
    ∃ r : DiffResult, (CompareStrings "a\nb\nc\nd\ne" "a\nc\ne").1 = some r ∧
      recover '-' r.String = "a\nb\nc\nd\ne" ∧ recover '+' r.String = "a\nc\ne" :=
  CompareStrings_recover "a\nb\nc\nd\ne" "a\nc\ne" (by decide)

end diff

namespace helmrender

/-! ## Validation of the options -/

/-- C19: for every `RenderOptions` whose `ReleaseName` is empty, `Render` returns a nil
result and a non-nil error, whatever the file system, the chart and Helm do; the message
of the error is `chart path cannot be empty` when `ChartPath` is empty too, and
`release name cannot be empty` otherwise. -/
theorem Render_empty_release_name {Chart : Type} (env : Env Chart) (opts : RenderOptions)
    (h : opts.ReleaseName = "") :
    (Render env opts).1 = none ∧
    ∃ e : Error, (Render env opts).2 = some e ∧
      e.Error = if opts.ChartPath = "" then "chart path cannot be empty"
        else "release name cannot be empty" := by
  by_cases hc : opts.ChartPath = ""
  · have hv : validateOptions env opts =
        some (Error.errorString "chart path cannot be empty") := by
      simp [validateOptions, hc]
    simp only [Render, hv, hc, if_true, true_and]
    exact ⟨_, rfl, rfl⟩
  · have hv : validateOptions env opts =
        some (Error.errorString "release name cannot be empty") := by
      simp [validateOptions, hc, h]
    simp only [Render, hv, hc, if_false, true_and]
    exact ⟨_, rfl, rfl⟩

/-- Witness of C19: an existing chart path and an empty release name. -/
theorem Render_empty_release_name_witness :
    (Render (sampleEnv StatResult.exists "kind: Service")
      { ChartPath := "testdata/valid-chart", ValuesFiles := [], Values := none,
        Namespace := "default", ReleaseName := "" }).1 = none ∧
    ∃ e : Error, (Render (sampleEnv StatResult.exists "kind: Service")
      { ChartPath := "testdata/valid-chart", ValuesFiles := [], Values := none,
        Namespace := "default", ReleaseName := "" }).2 = some e ∧
      e.Error = if "testdata/valid-chart" = "" then "chart path cannot be empty"
        else "release name cannot be empty" :=
  Render_empty_release_name (sampleEnv StatResult.exists "kind: Service")
    { ChartPath := "testdata/valid-chart", ValuesFiles := [], Values := none,
      Namespace := "default", ReleaseName := "" } rfl

/-- C20: for every `RenderOptions` with a non-empty `ChartPath` and a non-empty
`ReleaseName` whose `ChartPath` does not exist on the file system, `Render` returns a nil
result and a `ChartNotFoundError` whose `Path` is `opts.ChartPath` and whose message is
`chart not found at path: ` followed by that path. -/
theorem Render_chart_not_found {Chart : Type} (env : Env Chart) (opts : RenderOptions)
    (hc : opts.ChartPath ≠ "") (hr : opts.ReleaseName ≠ "")
    (hs : env.Stat opts.ChartPath = StatResult.notExist) :
    Render env opts = (none, some (Error.ChartNotFoundError opts.ChartPath)) ∧
    (Error.ChartNotFoundError opts.ChartPath).Error =
      "chart not found at path: " ++ opts.ChartPath := by
  have hv : validateOptions env opts = some (Error.ChartNotFoundError opts.ChartPath) := by
    simp [validateOptions, hc, hr, hs]
  simp only [Render, hv, true_and]
  rfl

/-- Witness of C20: the path `/non/existent/path` on a file system without it. -/
theorem Render_chart_not_found_witness :
    Render (sampleEnv StatResult.notExist "")
      { ChartPath := "/non/existent/path", ValuesFiles := [], Values := none,
        Namespace := "default", ReleaseName := "test-release" } =
      (none, some (Error.ChartNotFoundError "/non/existent/path")) ∧
    (Error.ChartNotFoundError "/non/existent/path").Error =
      "chart not found at path: " ++ "/non/existent/path" :=
  Render_chart_not_found (sampleEnv StatResult.notExist "")
    { ChartPath := "/non/existent/path", ValuesFiles := [], Values := none,
      Namespace := "default", ReleaseName := "test-release" } (by decide) (by decide) rfl

/-! ## Separation of the manifests -/

theorem TrimSpace_idempotent (s : String) :
    strings.TrimSpace (strings.TrimSpace s) = strings.TrimSpace s := by
  unfold strings.TrimSpace
  simp only
  congr 1
  have hdrop : List.dropWhile strings.isSpace
      (List.rdropWhile strings.isSpace (List.dropWhile strings.isSpace s.data)) =
      List.rdropWhile strings.isSpace (List.dropWhile strings.isSpace s.data) := by
    cases ht : List.rdropWhile strings.isSpace (List.dropWhile strings.isSpace s.data) with
    | nil => rfl
    | cons x t =>
      have hpre : List.rdropWhile strings.isSpace (List.dropWhile strings.isSpace s.data)
          <+: List.dropWhile strings.isSpace s.data := List.rdropWhile_prefix strings.isSpace _
      obtain ⟨r, hr⟩ := hpre
      rw [ht] at hr
      have hhead := List.head_dropWhile_not strings.isSpace s.data (by rw [← hr]; simp)
      have hx : strings.isSpace x = false := by
        simpa [← hr] using hhead
      rw [List.dropWhile_cons_of_neg (by simp [hx])]
  rw [hdrop, List.rdropWhile_idempotent]

theorem mem_separateLoop (docs : List String) :
    ∀ (manifests : List String) (m : String), m ∈ separateLoop manifests docs →
      m ∈ manifests ∨ ∃ doc ∈ docs, m = strings.TrimSpace doc ∧ strings.TrimSpace doc ≠ "" := by
  induction docs with
  | nil => intro manifests m hm; exact Or.inl hm
  | cons doc rest ih =>
    intro manifests m hm
    unfold separateLoop at hm
    by_cases ht : strings.TrimSpace doc = ""
    · rw [if_pos ht] at hm
      rcases ih manifests m hm with h1 | ⟨d, hd, h2⟩
      · exact Or.inl h1
      · exact Or.inr ⟨d, List.mem_cons_of_mem doc hd, h2⟩
    · rw [if_neg ht] at hm
      rcases ih _ m hm with h1 | ⟨d, hd, h2⟩
      · rcases List.mem_append.mp h1 with h3 | h3
        · exact Or.inl h3
        · exact Or.inr ⟨doc, List.mem_cons_self doc rest, List.mem_singleton.mp h3, ht⟩
      · exact Or.inr ⟨d, List.mem_cons_of_mem doc hd, h2⟩

/-- C18: for every input string, every manifest `separateManifests` returns is non-empty
and equals its own `TrimSpace` (it has no leading or trailing white space); and for the
empty input the list returned is empty. -/
theorem separateManifests_trimmed :
    (∀ (manifestString : String), ∀ m ∈ separateManifests manifestString,
      m ≠ "" ∧ strings.TrimSpace m = m) ∧
    separateManifests "" = [] := by
  refine ⟨?_, by decide⟩
  intro manifestString m hm
  unfold separateManifests at hm
  by_cases he : manifestString = ""
  · rw [if_pos he] at hm
    cases hm
  · rw [if_neg he] at hm
    rcases mem_separateLoop _ [] m hm with h1 | ⟨d, _, h2, h3⟩
    · cases h1
    · rw [h2]
      exact ⟨h3, TrimSpace_idempotent d⟩

/-- C17, at a failing input: the single document `k: a---b` is non-empty, has no leading
or trailing white space and has no line equal to `---`, and `separateManifests` of it
(the join of the one-document list) is the two pieces `k: a` and `b`, not the
document. -/
theorem separateManifests_splits_inside_line :
    (∀ doc ∈ ["k: a---b"], doc ≠ "" ∧ strings.TrimSpace doc = doc ∧
      ∀ line ∈ strings.Split doc "\n", line ≠ "---") ∧
    separateManifests (strings.Join ["k: a---b"] "\n---\n") = ["k: a", "b"] ∧
    separateManifests (strings.Join ["k: a---b"] "\n---\n") ≠ ["k: a---b"] := by
  decide

example : separateManifests "kind: A\nx: 1\n---\nkind: B\n" = ["kind: A\nx: 1", "kind: B"] := by
  decide
example : separateManifests "---\n# Source: a.yaml\nkind: A\n---\n\n---\nkind: B" =
    ["# Source: a.yaml\nkind: A", "kind: B"] := by decide
example : separateManifests (strings.Join ["kind: A", "kind: B\ny: 2", "kind: C"] "\n---\n") =
    ["kind: A", "kind: B\ny: 2", "kind: C"] := by decide

/-! ## Reads and writes of a map -/

theorem mapGet_eq_none_iff (m : Map) (k : String) : mapGet m k = none ↔ k ∉ keys m := by
  induction m with
  | nil => simp [mapGet, keys]
  | cons e rest ih =>
    obtain ⟨k1, v1⟩ := e
    by_cases h : k1 = k
    · simp [mapGet, keys, h]
    · have h2 : ¬ k = k1 := fun h3 => h h3.symm
      simp only [mapGet, if_neg h, ih, keys, List.map_cons, List.mem_cons, h2, false_or]

theorem mapGet_mapSet_self (m : Map) (k : String) (v : Value) :
    mapGet (mapSet m k v) k = some v := by
  induction m with
  | nil => simp [mapSet, mapGet]
  | cons e rest ih =>
    obtain ⟨k1, v1⟩ := e
    by_cases h : k1 = k
    · simp [mapSet, mapGet, h]
    · simp [mapSet, mapGet, h, ih]

theorem mapGet_mapSet_ne (m : Map) (k k2 : String) (v : Value) (hne : k ≠ k2) :
    mapGet (mapSet m k v) k2 = mapGet m k2 := by
  induction m with
  | nil => simp [mapSet, mapGet, hne]
  | cons e rest ih =>
    obtain ⟨k1, v1⟩ := e
    by_cases h : k1 = k
    · have h2 : ¬ k1 = k2 := fun h3 => hne (h ▸ h3)
      simp [mapSet, mapGet, h, h2, hne]
    · by_cases h2 : k1 = k2
      · subst h2
        simp [mapSet, mapGet, h]
      · simp [mapSet, mapGet, h, h2, ih]

theorem mapSet_of_not_mem (m : Map) (k : String) (v : Value) (h : k ∉ keys m) :
    mapSet m k v = m ++ [(k, v)] := by
  induction m with
  | nil => rfl
  | cons e rest ih =>
    obtain ⟨k1, v1⟩ := e
    have h1 : ¬ k1 = k := fun h2 => h (by simp [keys, h2])
    have h3 : k ∉ keys rest := fun h2 => h (by simp only [keys] at h2; simp [keys, h2])
    simp [mapSet, h1, ih h3]

theorem keys_mapSet_of_mem (m : Map) (k : String) (v : Value) (h : k ∈ keys m) :
    keys (mapSet m k v) = keys m := by
  induction m with
  | nil => simp [keys] at h
  | cons e rest ih =>
    obtain ⟨k1, v1⟩ := e
    by_cases h1 : k1 = k
    · simp [mapSet, keys, h1]
    · have h3 : k ∈ keys rest := by
        simp only [keys, List.map_cons, List.mem_cons] at h
        rcases h with h4 | h4
        · exact absurd h4.symm h1
        · exact h4
      have := ih h3
      simp only [keys] at this
      simp [mapSet, keys, h1, this]

theorem keys_mapSet (m : Map) (k : String) (v : Value) :
    keys (mapSet m k v) = if k ∈ keys m then keys m else keys m ++ [k] := by
  by_cases h : k ∈ keys m
  · rw [if_pos h, keys_mapSet_of_mem m k v h]
  · rw [if_neg h, mapSet_of_not_mem m k v h]
    simp [keys]

theorem mem_keys_mapSet (m : Map) (k k2 : String) (v : Value) :
    k2 ∈ keys (mapSet m k v) ↔ k2 ∈ keys m ∨ k2 = k := by
  rw [keys_mapSet]
  by_cases h : k ∈ keys m
  · rw [if_pos h]
    constructor
    · exact Or.inl
    · intro h2
      rcases h2 with h3 | h3
      · exact h3
      · exact h3 ▸ h
  · rw [if_neg h]
    simp

theorem nodup_keys_mapSet (m : Map) (k : String) (v : Value) (h : (keys m).Nodup) :
    (keys (mapSet m k v)).Nodup := by
  rw [keys_mapSet]
  by_cases h1 : k ∈ keys m
  · rw [if_pos h1]
    exact h
  · rw [if_neg h1]
    exact List.Nodup.append h (List.nodup_singleton k) (by simpa using h1)

/-- The first loop of `mergeMaps` copies a map without repeated keys as it is. -/
theorem copyLoop_eq_append (base : Map) :
    ∀ result : Map, (keys base).Nodup → (∀ k ∈ keys base, k ∉ keys result) →
      copyLoop result base = result ++ base := by
  induction base with
  | nil => intro result _ _; simp [copyLoop]
  | cons e rest ih =>
    intro result hnd hdisj
    obtain ⟨k1, v1⟩ := e
    have hnd2 := List.nodup_cons.mp hnd
    have hk1 : k1 ∉ keys result := hdisj k1 (by simp [keys])
    rw [copyLoop, mapSet_of_not_mem result k1 v1 hk1, ih (result ++ [(k1, v1)]) hnd2.2]
    · simp
    · intro k hk hmem
      simp only [keys, List.map_append, List.map_cons, List.map_nil, List.mem_append,
        List.mem_singleton] at hmem
      rcases hmem with h1 | h1
      · exact hdisj k (by simp only [keys] at hk; simp [keys, hk]) (by simpa [keys] using h1)
      · exact hnd2.1 (h1 ▸ hk)

theorem copyLoop_nil (base : Map) (h : (keys base).Nodup) : copyLoop [] base = base := by
  rw [copyLoop_eq_append base [] h (by simp [keys])]
  rfl

theorem mergeEntry_map_map (existingMap overrideMap : Map) :
    mergeEntry (some (Value.map existingMap)) (Value.map overrideMap) =
      Value.map (mergeMaps existingMap overrideMap) := by
  rw [mergeEntry]
  rfl

theorem mergeEntry_other (existing : Option Value) (text : String) :
    mergeEntry existing (Value.other text) = Value.other text := by
  rw [mergeEntry]

theorem mergeEntry_of_not_both (existing : Option Value) (v : Value)
    (h : ¬ ∃ existingMap overrideMap,
      existing = some (Value.map existingMap) ∧ v = Value.map overrideMap) :
    mergeEntry existing v = v := by
  cases v with
  | other text => rw [mergeEntry]
  | map overrideMap =>
    cases existing with
    | none => rfl
    | some e =>
      cases e with
      | other t => rfl
      | map existingMap => exact absurd ⟨existingMap, overrideMap, rfl, rfl⟩ h

/-! ## The two loops of `mergeMaps` -/

theorem mergeLoop_cons (result : Map) (k : String) (v : Value) (rest : Map) :
    mergeLoop result ((k, v) :: rest) =
      mergeLoop (mapSet result k (mergeEntry (mapGet result k) v)) rest := by
  rw [mergeLoop]

theorem mapGet_mergeLoop_of_not_mem (override : Map) :
    ∀ (result : Map) (k : String), k ∉ keys override →
      mapGet (mergeLoop result override) k = mapGet result k := by
  induction override with
  | nil => intro result k _; rw [mergeLoop]
  | cons e rest ih =>
    intro result k hk
    obtain ⟨k1, v1⟩ := e
    have h1 : k1 ≠ k := fun h => hk (by simp [keys, h])
    have h2 : k ∉ keys rest := fun h => hk (by simp only [keys] at h; simp [keys, h])
    rw [mergeLoop_cons, ih _ k h2, mapGet_mapSet_ne _ _ _ _ h1]

theorem mapGet_mergeLoop_of_mem (override : Map) :
    ∀ (result : Map) (k : String) (v : Value), (keys override).Nodup →
      mapGet override k = some v →
      mapGet (mergeLoop result override) k = some (mergeEntry (mapGet result k) v) := by
  induction override with
  | nil => intro result k v _ h; simp [mapGet] at h
  | cons e rest ih =>
    intro result k v hnd hget
    obtain ⟨k1, v1⟩ := e
    have hnd2 := List.nodup_cons.mp hnd
    rw [mergeLoop_cons]
    by_cases h1 : k1 = k
    · subst h1
      have hv : v1 = v := by simpa [mapGet] using hget
      subst hv
      rw [mapGet_mergeLoop_of_not_mem rest _ k1 hnd2.1, mapGet_mapSet_self]
    · have hget2 : mapGet rest k = some v := by simpa [mapGet, h1] using hget
      rw [ih _ k v hnd2.2 hget2, mapGet_mapSet_ne _ _ _ _ h1]

theorem mem_keys_mergeLoop (override : Map) :
    ∀ (result : Map) (k : String),
      k ∈ keys (mergeLoop result override) ↔ k ∈ keys result ∨ k ∈ keys override := by
  induction override with
  | nil => intro result k; rw [mergeLoop]; simp [keys]
  | cons e rest ih =>
    intro result k
    obtain ⟨k1, v1⟩ := e
    rw [mergeLoop_cons, ih, mem_keys_mapSet]
    simp only [keys, List.map_cons, List.mem_cons]
    tauto

theorem nodup_keys_mergeLoop (override : Map) :
    ∀ result : Map, (keys result).Nodup → (keys (mergeLoop result override)).Nodup := by
  induction override with
  | nil => intro result h; rw [mergeLoop]; exact h
  | cons e rest ih =>
    intro result h
    obtain ⟨k1, v1⟩ := e
    rw [mergeLoop_cons]
    exact ih _ (nodup_keys_mapSet result k1 _ h)

/-- C15: `mergeMaps` merges recursively, the second map taking precedence.  For maps
that hold each key once: the result holds each key once, its keys are the keys of
`base` together with the keys of `override`; a key that is only in `base` keeps the
value of `base`; a key of `override` whose values in `base` and in `override` are both
maps holds `mergeMaps` of the two; every other key of `override` holds the value of
`override`. -/
theorem mergeMaps_spec (base override : Map)
    (hb : (keys base).Nodup) (ho : (keys override).Nodup) :
    (keys (mergeMaps base override)).Nodup ∧
    (∀ k, k ∈ keys (mergeMaps base override) ↔ k ∈ keys base ∨ k ∈ keys override) ∧
    (∀ k, k ∉ keys override → mapGet (mergeMaps base override) k = mapGet base k) ∧
    (∀ k baseMap overrideMap, mapGet base k = some (Value.map baseMap) →
      mapGet override k = some (Value.map overrideMap) →
      mapGet (mergeMaps base override) k = some (Value.map (mergeMaps baseMap overrideMap))) ∧
    (∀ k v, mapGet override k = some v →
      (¬ ∃ baseMap overrideMap,
        mapGet base k = some (Value.map baseMap) ∧ v = Value.map overrideMap) →
      mapGet (mergeMaps base override) k = some v) := by
  unfold mergeMaps
  rw [copyLoop_nil base hb]
  refine ⟨nodup_keys_mergeLoop override base hb, mem_keys_mergeLoop override base,
    fun k hk => mapGet_mergeLoop_of_not_mem override base k hk, ?_, ?_⟩
  · intro k baseMap overrideMap h1 h2
    rw [mapGet_mergeLoop_of_mem override base k _ ho h2, h1, mergeEntry_map_map]
    rfl
  · intro k v h1 h2
    rw [mapGet_mergeLoop_of_mem override base k v ho h1, mergeEntry_of_not_both _ _ h2]

/-- Witness of C15: the base holds `replicaCount`, `image` (a map) and `name`; the
override holds `replicaCount` and `image` (a map). -/
theorem mergeMaps_spec_witness :
    mapGet (mergeMaps
        [("replicaCount", Value.other "2"), ("image", Value.map [("tag", Value.other "dev")]),
          ("name", Value.other "app")]
        [("replicaCount", Value.other "7"),
          ("image", Value.map [("pullPolicy", Value.other "Always")])]) "image" =
      some (Value.map (mergeMaps [("tag", Value.other "dev")]
        [("pullPolicy", Value.other "Always")])) :=
  (mergeMaps_spec
    [("replicaCount", Value.other "2"), ("image", Value.map [("tag", Value.other "dev")]),
      ("name", Value.other "app")]
    [("replicaCount", Value.other "7"),
      ("image", Value.map [("pullPolicy", Value.other "Always")])]
    (by decide) (by decide)).2.2.2.1 "image" [("tag", Value.other "dev")]
      [("pullPolicy", Value.other "Always")] (by decide) (by decide)

/-! ## Precedence in `mergeValues` -/

theorem entriesWellFormed_cons (k : String) (v : Value) (rest : Map) :
    entriesWellFormed ((k, v) :: rest) = true ↔
      k ∉ keys rest ∧ v.wellFormed = true ∧ entriesWellFormed rest = true := by
  rw [entriesWellFormed]
  simp [keys]

theorem nodup_keys_of_wellFormed (m : Map) (h : entriesWellFormed m = true) :
    (keys m).Nodup := by
  induction m with
  | nil => simp [keys]
  | cons e rest ih =>
    obtain ⟨k, v⟩ := e
    have h2 := (entriesWellFormed_cons k v rest).mp h
    simp only [keys, List.map_cons]
    exact List.nodup_cons.mpr ⟨h2.1, ih h2.2.2⟩

theorem wellFormed_of_mapGet (m : Map) (k : String) (v : Value)
    (h : entriesWellFormed m = true) (hget : mapGet m k = some v) : v.wellFormed = true := by
  induction m with
  | nil => simp [mapGet] at hget
  | cons e rest ih =>
    obtain ⟨k1, v1⟩ := e
    have h2 := (entriesWellFormed_cons k1 v1 rest).mp h
    by_cases h1 : k1 = k
    · have hv : v1 = v := by simpa [mapGet, h1] using hget
      rw [← hv]
      exact h2.2.1
    · exact ih h2.2.2 (by simpa [mapGet, h1] using hget)

/-- A path of `override` that ends at a value which is not a map leads to the same
value in `mergeMaps base override`. -/
theorem getPath_mergeMaps (path : List String) :
    ∀ (base override : Map) (text : String), entriesWellFormed override = true →
      getPath override path = some (Value.other text) →
      getPath (mergeMaps base override) path = some (Value.other text) := by
  induction path with
  | nil => intro base override text _ h; simp [getPath] at h
  | cons k rest ih =>
    intro base override text hwf hpath
    have hnd := nodup_keys_of_wellFormed override hwf
    cases rest with
    | nil =>
      rw [getPath] at hpath
      rw [getPath, mergeMaps, mapGet_mergeLoop_of_mem override _ k _ hnd hpath,
        mergeEntry_other]
    | cons k2 rest2 =>
      rw [getPath] at hpath
      cases hget : mapGet override k with
      | none => rw [hget] at hpath; simp at hpath
      | some v =>
        cases v with
        | other t => rw [hget] at hpath; simp at hpath
        | map inner =>
          rw [hget] at hpath
          simp only at hpath
          have hinner : entriesWellFormed inner = true := by
            have := wellFormed_of_mapGet override k _ hwf hget
            rwa [Value.wellFormed] at this
          rw [getPath, mergeMaps, mapGet_mergeLoop_of_mem override _ k _ hnd hget]
          cases hex : mapGet (copyLoop [] base) k with
          | none => exact hpath
          | some e =>
            cases e with
            | other t => exact hpath
            | map existingMap =>
              rw [mergeEntry_map_map]
              exact ih existingMap inner text hinner hpath

theorem valuesFilesLoop_append {Chart : Type} (env : Env Chart) (files : List String) :
    ∀ (values : Map) (fileMaps : List Map),
      files.map (loadValuesFile env) = fileMaps.map (fun m => (m, none)) →
      valuesFilesLoop env values files = (fileMaps.foldl mergeMaps values, none) := by
  induction files with
  | nil =>
    intro values fileMaps h
    cases fileMaps with
    | nil => rfl
    | cons m ms => simp at h
  | cons f rest ih =>
    intro values fileMaps h
    cases fileMaps with
    | nil => simp at h
    | cons m ms =>
      rw [List.map_cons, List.map_cons] at h
      have h1 := (List.cons.inj h).1
      have h2 := (List.cons.inj h).2
      rw [valuesFilesLoop, h1]
      simp only
      rw [ih (mergeMaps values m) ms h2]
      rfl

theorem nodup_keys_copyLoop (base : Map) :
    ∀ result : Map, (keys result).Nodup → (keys (copyLoop result base)).Nodup := by
  induction base with
  | nil => intro result h; exact h
  | cons e rest ih =>
    intro result h
    obtain ⟨k1, v1⟩ := e
    rw [copyLoop]
    exact ih _ (nodup_keys_mapSet result k1 v1 h)

/-- The map `mergeMaps` returns holds each key once, whatever its arguments. -/
theorem nodup_keys_mergeMaps (base override : Map) :
    (keys (mergeMaps base override)).Nodup :=
  nodup_keys_mergeLoop override _ (nodup_keys_copyLoop base [] (by simp [keys]))

theorem nodupAlong_of_wellFormed (path : List String) :
    ∀ m : Map, entriesWellFormed m = true → nodupAlong m path := by
  induction path with
  | nil => intro m _; trivial
  | cons k rest ih =>
    intro m h
    refine ⟨nodup_keys_of_wellFormed m h, ?_⟩
    intro inner hget
    have hv := wellFormed_of_mapGet m k _ h hget
    rw [Value.wellFormed] at hv
    exact ih inner hv

/-- The maps along a path that `override` sets are in order in `mergeMaps base override`. -/
theorem nodupAlong_mergeMaps (path : List String) :
    ∀ (base override : Map) (text : String), entriesWellFormed override = true →
      getPath override path = some (Value.other text) →
      nodupAlong (mergeMaps base override) path := by
  induction path with
  | nil => intro base override text _ _; trivial
  | cons k rest ih =>
    intro base override text hwf hpath
    have hnd := nodup_keys_of_wellFormed override hwf
    refine ⟨nodup_keys_mergeMaps base override, ?_⟩
    intro inner hinner
    cases rest with
    | nil => trivial
    | cons k2 rest2 =>
      rw [getPath] at hpath
      cases hget : mapGet override k with
      | none => rw [hget] at hpath; simp at hpath
      | some v =>
        cases v with
        | other t => rw [hget] at hpath; simp at hpath
        | map sub =>
          rw [hget] at hpath
          simp only at hpath
          have hsub : entriesWellFormed sub = true := by
            have := wellFormed_of_mapGet override k _ hwf hget
            rwa [Value.wellFormed] at this
          rw [mergeMaps, mapGet_mergeLoop_of_mem override _ k _ hnd hget] at hinner
          cases hex : mapGet (copyLoop [] base) k with
          | none =>
            rw [hex] at hinner
            have hi : sub = inner := by
              have := Option.some.inj hinner
              exact Value.map.inj this
            rw [← hi]
            exact nodupAlong_of_wellFormed _ sub hsub
          | some e =>
            cases e with
            | other t =>
              rw [hex] at hinner
              have hi : sub = inner := by
                have := Option.some.inj hinner
                exact Value.map.inj this
              rw [← hi]
              exact nodupAlong_of_wellFormed _ sub hsub
            | map existingMap =>
              rw [hex, mergeEntry_map_map] at hinner
              have hi : mergeMaps existingMap sub = inner := by
                have := Option.some.inj hinner
                exact Value.map.inj this
              rw [← hi]
              exact ih existingMap sub text hsub hpath

/-- Merging a map that does not touch a path leaves what `base` holds at the path. -/
theorem getPath_mergeMaps_untouched (path : List String) :
    ∀ (base override : Map) (text : String), nodupAlong base path →
      nodupAlong override path → getPath base path = some (Value.other text) →
      touches override path = false →
      getPath (mergeMaps base override) path = some (Value.other text) ∧
        nodupAlong (mergeMaps base override) path := by
  induction path with
  | nil => intro base override text _ _ h; simp [getPath] at h
  | cons k rest ih =>
    intro base override text hbase hover hpath htouch
    have hcopy : copyLoop [] base = base := copyLoop_nil base hbase.1
    cases rest with
    | nil =>
      rw [getPath] at hpath
      have hnone : mapGet override k = none := by
        rw [touches] at htouch
        cases hg : mapGet override k with
        | none => rfl
        | some v => rw [hg] at htouch; simp at htouch
      have hk : k ∉ keys override := (mapGet_eq_none_iff override k).mp hnone
      refine ⟨?_, nodup_keys_mergeMaps base override, fun _ _ => trivial⟩
      rw [getPath, mergeMaps, hcopy, mapGet_mergeLoop_of_not_mem override base k hk]
      exact hpath
    | cons k2 rest2 =>
      rw [getPath] at hpath
      cases hget : mapGet base k with
      | none => rw [hget] at hpath; simp at hpath
      | some v =>
        cases v with
        | other t => rw [hget] at hpath; simp at hpath
        | map baseInner =>
          rw [hget] at hpath
          simp only at hpath
          have hbi := hbase.2 baseInner hget
          rw [touches] at htouch
          cases hg : mapGet override k with
          | none =>
            have hk : k ∉ keys override := (mapGet_eq_none_iff override k).mp hg
            have hres : mapGet (mergeMaps base override) k = some (Value.map baseInner) := by
              rw [mergeMaps, hcopy, mapGet_mergeLoop_of_not_mem override base k hk]
              exact hget
            refine ⟨?_, nodup_keys_mergeMaps base override, ?_⟩
            · rw [getPath, hres]
              exact hpath
            · intro inner hinner
              rw [hres] at hinner
              have hi : baseInner = inner := Value.map.inj (Option.some.inj hinner)
              rw [← hi]
              exact hbi
          | some ov =>
            cases ov with
            | other t => rw [hg] at htouch; simp at htouch
            | map overInner =>
              rw [hg] at htouch
              simp only at htouch
              have hres : mapGet (mergeMaps base override) k =
                  some (Value.map (mergeMaps baseInner overInner)) := by
                rw [mergeMaps, hcopy, mapGet_mergeLoop_of_mem override base k _ hover.1 hg,
                  hget, mergeEntry_map_map]
              have hrec := ih baseInner overInner text hbi (hover.2 overInner hg) hpath htouch
              refine ⟨?_, nodup_keys_mergeMaps base override, ?_⟩
              · rw [getPath, hres]
                exact hrec.1
              · intro inner hinner
                rw [hres] at hinner
                have hi : mergeMaps baseInner overInner = inner :=
                  Value.map.inj (Option.some.inj hinner)
                rw [← hi]
                exact hrec.2

/-- Merging, one after the other, maps that do not touch a path leaves what `base` holds
at the path. -/
theorem getPath_foldl_untouched (path : List String) (text : String) (later : List Map) :
    ∀ base : Map, nodupAlong base path → getPath base path = some (Value.other text) →
      (∀ m ∈ later, entriesWellFormed m = true) → (∀ m ∈ later, touches m path = false) →
      getPath (later.foldl mergeMaps base) path = some (Value.other text) := by
  induction later with
  | nil => intro base _ h _ _; exact h
  | cons m rest ih =>
    intro base hbase hpath hwf htouch
    have hstep := getPath_mergeMaps_untouched path base m text hbase
      (nodupAlong_of_wellFormed path m (hwf m (List.mem_cons_self m rest))) hpath
      (htouch m (List.mem_cons_self m rest))
    rw [List.foldl_cons]
    exact ih (mergeMaps base m) hstep.2 hstep.1
      (fun x hx => hwf x (List.mem_cons_of_mem m hx))
      (fun x hx => htouch x (List.mem_cons_of_mem m hx))

/-- What `mergeValues` returns when the values files load: the maps of the files and then
the inline values, merged from the left into the empty map. -/
theorem mergeValues_eq_foldl {Chart : Type} (env : Env Chart) (opts : RenderOptions)
    (fileMaps : List Map)
    (hload : opts.ValuesFiles.map (loadValuesFile env) = fileMaps.map (fun m => (m, none))) :
    mergeValues env opts = ((fileMaps ++ opts.Values.toList).foldl mergeMaps [], none) := by
  have hloop := valuesFilesLoop_append env opts.ValuesFiles [] fileMaps hload
  cases hv : opts.Values with
  | none => simp [mergeValues, hloop, hv]
  | some inline => simp [mergeValues, hloop, hv, List.foldl_append]

/-- C16: precedence in `mergeValues`.  Let the values files load without error, as the
maps `fileMaps`; the sources are these maps in order, followed by the inline `Values`
when they are not nil.  Let `source` be any of the sources, `earlier` the sources before
it and `later` those after it.  For every path of keys of `source` that ends at a value
which is not a map and that no later source touches, `mergeValues` returns no error and
a map holding that same value at that path, whatever the earlier sources contain.  So the
inline values, which have no later source, take precedence at every such path of
theirs, and a later values file overrides every earlier one.  (`source` and the later
sources hold each key once in every map of them, as Go maps do.) -/
theorem mergeValues_precedence {Chart : Type} (env : Env Chart) (opts : RenderOptions)
    (fileMaps : List Map)
    (hload : opts.ValuesFiles.map (loadValuesFile env) = fileMaps.map (fun m => (m, none)))
    (earlier : List Map) (source : Map) (later : List Map)
    (hsources : fileMaps ++ opts.Values.toList = earlier ++ source :: later)
    (hwf : entriesWellFormed source = true)
    (hlater : ∀ m ∈ later, entriesWellFormed m = true)
    (path : List String) (text : String)
    (hpath : getPath source path = some (Value.other text))
    (huntouched : ∀ m ∈ later, touches m path = false) :
    (mergeValues env opts).2 = none ∧
    getPath (mergeValues env opts).1 path = some (Value.other text) := by
  rw [mergeValues_eq_foldl env opts fileMaps hload, hsources, List.foldl_append,
    List.foldl_cons]
  refine ⟨rfl, ?_⟩
  exact getPath_foldl_untouched path text later _
    (nodupAlong_mergeMaps path _ source text hwf hpath)
    (getPath_mergeMaps path _ source text hwf hpath) hlater huntouched

/-- Witness of C16: the files `values.yaml` and `values-dev.yaml` and inline values.  The
inline `replicaCount` wins over both files, and the `image.tag` of the later file wins
over the earlier file and stays under inline values that do not touch it.  Then the
files `{a: 1}`, `{a: 2}` under empty inline values, and the files `{a: 1}`, `{a: 2}`,
`{b: 3}` without inline values: `a` is 2 in both. -/
theorem mergeValues_precedence_witness :
    getPath (mergeValues
      (filesEnv [("values.yaml", [("replicaCount", Value.other "1"),
          ("image", Value.map [("tag", Value.other "base"), ("repo", Value.other "nginx")])]),
        ("values-dev.yaml", [("replicaCount", Value.other "2"),
          ("image", Value.map [("tag", Value.other "dev-version")])])])
      { ChartPath := "chart", ValuesFiles := ["values.yaml", "values-dev.yaml"],
        Values := some [("replicaCount", Value.other "7"),
          ("image", Value.map [("pullPolicy", Value.other "Always")])],
        Namespace := "default", ReleaseName := "mixed-values-release" }).1
      ["replicaCount"] = some (Value.other "7") ∧
    getPath (mergeValues
      (filesEnv [("values.yaml", [("replicaCount", Value.other "1"),
          ("image", Value.map [("tag", Value.other "base"), ("repo", Value.other "nginx")])]),
        ("values-dev.yaml", [("replicaCount", Value.other "2"),
          ("image", Value.map [("tag", Value.other "dev-version")])])])
      { ChartPath := "chart", ValuesFiles := ["values.yaml", "values-dev.yaml"],
        Values := some [("replicaCount", Value.other "7"),
          ("image", Value.map [("pullPolicy", Value.other "Always")])],
        Namespace := "default", ReleaseName := "mixed-values-release" }).1
      ["image", "tag"] = some (Value.other "dev-version") ∧
    getPath (mergeValues
      (filesEnv [("one", [("a", Value.other "1")]), ("two", [("a", Value.other "2")])])
      { ChartPath := "chart", ValuesFiles := ["one", "two"], Values := some [],
        Namespace := "default", ReleaseName := "release" }).1 ["a"] =
      some (Value.other "2") ∧
    getPath (mergeValues
      (filesEnv [("one", [("a", Value.other "1")]), ("two", [("a", Value.other "2")]),
        ("three", [("b", Value.other "3")])])
      { ChartPath := "chart", ValuesFiles := ["one", "two", "three"], Values := none,
        Namespace := "default", ReleaseName := "release" }).1 ["a"] =
      some (Value.other "2") :=
  ⟨(mergeValues_precedence
      (filesEnv [("values.yaml", [("replicaCount", Value.other "1"),
          ("image", Value.map [("tag", Value.other "base"), ("repo", Value.other "nginx")])]),
        ("values-dev.yaml", [("replicaCount", Value.other "2"),
          ("image", Value.map [("tag", Value.other "dev-version")])])])
      { ChartPath := "chart", ValuesFiles := ["values.yaml", "values-dev.yaml"],
        Values := some [("replicaCount", Value.other "7"),
          ("image", Value.map [("pullPolicy", Value.other "Always")])],
        Namespace := "default", ReleaseName := "mixed-values-release" }
      [[("replicaCount", Value.other "1"),
          ("image", Value.map [("tag", Value.other "base"), ("repo", Value.other "nginx")])],
        [("replicaCount", Value.other "2"),
          ("image", Value.map [("tag", Value.other "dev-version")])]]
      (by decide)
      [[("replicaCount", Value.other "1"),
          ("image", Value.map [("tag", Value.other "base"), ("repo", Value.other "nginx")])],
        [("replicaCount", Value.other "2"),
          ("image", Value.map [("tag", Value.other "dev-version")])]]
      [("replicaCount", Value.other "7"),
        ("image", Value.map [("pullPolicy", Value.other "Always")])]
      [] (by decide) (by decide) (by decide) ["replicaCount"] "7" (by decide)
      (by decide)).2,
   (mergeValues_precedence
      (filesEnv [("values.yaml", [("replicaCount", Value.other "1"),
          ("image", Value.map [("tag", Value.other "base"), ("repo", Value.other "nginx")])]),
        ("values-dev.yaml", [("replicaCount", Value.other "2"),
          ("image", Value.map [("tag", Value.other "dev-version")])])])
      { ChartPath := "chart", ValuesFiles := ["values.yaml", "values-dev.yaml"],
        Values := some [("replicaCount", Value.other "7"),
          ("image", Value.map [("pullPolicy", Value.other "Always")])],
        Namespace := "default", ReleaseName := "mixed-values-release" }
      [[("replicaCount", Value.other "1"),
          ("image", Value.map [("tag", Value.other "base"), ("repo", Value.other "nginx")])],
        [("replicaCount", Value.other "2"),
          ("image", Value.map [("tag", Value.other "dev-version")])]]
      (by decide)
      [[("replicaCount", Value.other "1"),
          ("image", Value.map [("tag", Value.other "base"), ("repo", Value.other "nginx")])]]
      [("replicaCount", Value.other "2"),
        ("image", Value.map [("tag", Value.other "dev-version")])]
      [[("replicaCount", Value.other "7"),
        ("image", Value.map [("pullPolicy", Value.other "Always")])]]
      (by decide) (by decide) (by decide) ["image", "tag"] "dev-version" (by decide)
      (by decide)).2,
   (mergeValues_precedence
      (filesEnv [("one", [("a", Value.other "1")]), ("two", [("a", Value.other "2")])])
      { ChartPath := "chart", ValuesFiles := ["one", "two"], Values := some [],
        Namespace := "default", ReleaseName := "release" }
      [[("a", Value.other "1")], [("a", Value.other "2")]] (by decide)
      [[("a", Value.other "1")]] [("a", Value.other "2")] [[]]
      (by decide) (by decide) (by decide) ["a"] "2" (by decide) (by decide)).2,
   (mergeValues_precedence
      (filesEnv [("one", [("a", Value.other "1")]), ("two", [("a", Value.other "2")]),
        ("three", [("b", Value.other "3")])])
      { ChartPath := "chart", ValuesFiles := ["one", "two", "three"], Values := none,
        Namespace := "default", ReleaseName := "release" }
      [[("a", Value.other "1")], [("a", Value.other "2")], [("b", Value.other "3")]]
      (by decide)
      [[("a", Value.other "1")]] [("a", Value.other "2")] [[("b", Value.other "3")]]
      (by decide) (by decide) (by decide) ["a"] "2" (by decide) (by decide)).2⟩

/-! ## Where `separateManifests` does return the documents

The documents come back from their join when none of them contains the three characters
`---` anywhere. -/

theorem splitAux_dashes_match (rest acc : List Char) :
    strings.splitAux ['-', '-', '-'] ('-' :: '-' :: '-' :: rest) 0 acc =
      acc.reverse :: strings.splitAux ['-', '-', '-'] rest 0 [] := by
  have hp : ['-', '-', '-'] <+: '-' :: '-' :: '-' :: rest := ⟨rest, rfl⟩
  rw [strings.splitAux, if_pos hp]
  simp [strings.splitAux]

theorem splitAux_dashes_step (c : Char) (cs acc : List Char)
    (h : ¬ ['-', '-', '-'] <+: c :: cs) :
    strings.splitAux ['-', '-', '-'] (c :: cs) 0 acc =
      strings.splitAux ['-', '-', '-'] cs 0 (c :: acc) := by
  rw [strings.splitAux, if_neg h]

theorem dashes_not_before_newline (x tail : List Char)
    (h : ['-', '-', '-'] <+: x ++ '\n' :: tail) : ['-', '-', '-'] <+: x := by
  rcases x with _ | ⟨a, _ | ⟨b, _ | ⟨c, x⟩⟩⟩
  · simp [List.cons_prefix_cons] at h
  · simp [List.cons_prefix_cons] at h
  · simp [List.cons_prefix_cons] at h
  · simp only [List.cons_append, List.cons_prefix_cons] at h
    simp only [List.cons_prefix_cons, List.nil_prefix, and_true]
    exact ⟨h.1, h.2.1, h.2.2.1⟩

theorem splitAux_doc_newline (d : List Char) :
    ∀ (tail acc : List Char), ¬ ['-', '-', '-'] <:+: d →
      strings.splitAux ['-', '-', '-'] (d ++ '\n' :: tail) 0 acc =
        strings.splitAux ['-', '-', '-'] tail 0 ('\n' :: (d.reverse ++ acc)) := by
  induction d with
  | nil =>
    intro tail acc _
    rw [List.nil_append, splitAux_dashes_step _ _ _ (by simp [List.cons_prefix_cons])]
    rfl
  | cons c cs ih =>
    intro tail acc h
    have hp : ¬ ['-', '-', '-'] <+: (c :: cs) ++ '\n' :: tail :=
      fun hp => h (dashes_not_before_newline (c :: cs) tail hp).isInfix
    rw [List.cons_append] at hp ⊢
    rw [splitAux_dashes_step _ _ _ hp, ih tail (c :: acc) (fun h2 => h (List.infix_cons h2))]
    simp

theorem splitAux_doc_end (d : List Char) :
    ∀ acc : List Char, ¬ ['-', '-', '-'] <:+: d →
      strings.splitAux ['-', '-', '-'] d 0 acc = [acc.reverse ++ d] := by
  induction d with
  | nil => intro acc _; simp [strings.splitAux]
  | cons c cs ih =>
    intro acc h
    rw [splitAux_dashes_step _ _ _ (fun hp => h hp.isInfix),
      ih (c :: acc) (fun h2 => h (List.infix_cons h2))]
    simp

theorem dropWhile_append_of_all {α : Type} (p : α → Bool) (pre l : List α)
    (h : ∀ c ∈ pre, p c = true) : (pre ++ l).dropWhile p = l.dropWhile p := by
  induction pre with
  | nil => rfl
  | cons c cs ih =>
    rw [List.cons_append, List.dropWhile_cons_of_pos (h c (List.mem_cons_self c cs))]
    exact ih (fun x hx => h x (List.mem_cons_of_mem c hx))

theorem rdropWhile_append_of_all {α : Type} (p : α → Bool) (l post : List α)
    (h : ∀ c ∈ post, p c = true) : (l ++ post).rdropWhile p = l.rdropWhile p := by
  unfold List.rdropWhile
  rw [List.reverse_append, dropWhile_append_of_all p post.reverse l.reverse
    (fun c hc => h c (List.mem_reverse.mp hc))]

/-- White space put around a trimmed, non-empty text is trimmed away. -/
theorem TrimSpace_pad (pre post : List Char) (d : String)
    (hpre : ∀ c ∈ pre, strings.isSpace c = true) (hpost : ∀ c ∈ post, strings.isSpace c = true)
    (hd : strings.TrimSpace d = d) (hne : d ≠ "") :
    strings.TrimSpace ⟨pre ++ d.data ++ post⟩ = d := by
  have hdata : List.rdropWhile strings.isSpace (List.dropWhile strings.isSpace d.data) =
      d.data := congrArg String.data hd
  have hsuf : List.dropWhile strings.isSpace d.data <:+ d.data :=
    List.dropWhile_suffix strings.isSpace
  have hpre2 : List.rdropWhile strings.isSpace (List.dropWhile strings.isSpace d.data) <+:
      List.dropWhile strings.isSpace d.data := List.rdropWhile_prefix strings.isSpace _
  have hlen : (List.dropWhile strings.isSpace d.data).length = d.data.length := by
    have h1 := hsuf.length_le
    have h2 := hpre2.length_le
    rw [hdata] at h2
    omega
  have h1 : List.dropWhile strings.isSpace d.data = d.data := hsuf.eq_of_length hlen
  have h2 : List.rdropWhile strings.isSpace d.data = d.data := by
    rw [h1] at hdata
    exact hdata
  have hnil : d.data ≠ [] := fun h => hne (String.ext h)
  have hfirst : List.dropWhile strings.isSpace (d.data ++ post) = d.data ++ post := by
    cases hl : d.data with
    | nil => exact absurd hl hnil
    | cons x t =>
      have hx : ¬ strings.isSpace x = true := by
        have := List.dropWhile_eq_self_iff.mp h1 (by rw [hl]; simp)
        simpa [hl] using this
      rw [List.cons_append, List.dropWhile_cons_of_neg hx]
  unfold strings.TrimSpace
  apply String.ext
  simp only
  rw [List.append_assoc, dropWhile_append_of_all strings.isSpace pre _ hpre, hfirst,
    rdropWhile_append_of_all strings.isSpace _ post hpost, h2]

theorem separateLoop_split_join (ds : List String) :
    ∀ (d : String) (acc0 : List Char) (manifests : List String),
      (∀ c ∈ acc0, strings.isSpace c = true) →
      (∀ x ∈ d :: ds, x ≠ "" ∧ strings.TrimSpace x = x ∧ ¬ ['-', '-', '-'] <:+: x.data) →
      separateLoop manifests ((strings.splitAux ['-', '-', '-']
          (List.intercalate ['\n', '-', '-', '-', '\n'] ((d :: ds).map String.data))
          0 acc0).map String.mk) = manifests ++ d :: ds := by
  induction ds with
  | nil =>
    intro d acc0 manifests hacc h
    obtain ⟨hne, htrim, hno⟩ := h d (List.mem_singleton.mpr rfl)
    have hpad := TrimSpace_pad acc0.reverse [] d
      (fun c hc => hacc c (List.mem_reverse.mp hc)) (by simp) htrim hne
    rw [List.append_nil] at hpad
    rw [List.map_singleton, diff.intercalate_singleton, splitAux_doc_end d.data acc0 hno]
    simp only [List.map_cons, List.map_nil, separateLoop, hpad, if_neg hne]
  | cons d2 ds ih =>
    intro d acc0 manifests hacc h
    obtain ⟨hne, htrim, hno⟩ := h d (List.mem_cons_self d _)
    have hpad := TrimSpace_pad acc0.reverse ['\n'] d
      (fun c hc => hacc c (List.mem_reverse.mp hc)) (by decide) htrim hne
    have hrest := ih d2 ['\n'] (manifests ++ [d]) (by decide)
      (fun x hx => h x (List.mem_cons_of_mem d hx))
    rw [List.map_cons, List.map_cons, diff.intercalate_cons_cons]
    rw [← List.map_cons] 
    have hshape : d.data ++ ['\n', '-', '-', '-', '\n'] ++
        List.intercalate ['\n', '-', '-', '-', '\n'] ((d2 :: ds).map String.data) =
        d.data ++ '\n' :: ('-' :: '-' :: '-' :: ('\n' ::
          List.intercalate ['\n', '-', '-', '-', '\n'] ((d2 :: ds).map String.data))) := by
      simp
    rw [hshape, splitAux_doc_newline d.data _ acc0 hno, splitAux_dashes_match,
      splitAux_dashes_step _ _ _ (by simp [List.cons_prefix_cons])]
    have hpiece : ('\n' :: (d.data.reverse ++ acc0)).reverse = acc0.reverse ++ d.data ++ ['\n'] := by
      simp
    rw [List.map_cons, hpiece, separateLoop, hpad, if_neg hne, hrest]
    simp

/-- Round trip of `separateManifests` on documents that do not contain `---`: for every
list of documents, each non-empty, equal to its own `TrimSpace` and without the three
characters `---` anywhere in it, `separateManifests` of the documents joined by a line
`---` returns exactly the documents, in order. -/
theorem separateManifests_join (docs : List String)
    (h : ∀ x ∈ docs, x ≠ "" ∧ strings.TrimSpace x = x ∧ ¬ "---".data <:+: x.data) :
    separateManifests (strings.Join docs "\n---\n") = docs := by
  cases docs with
  | nil => decide
  | cons d ds =>
    have hd := (h d (List.mem_cons_self d ds)).1
    have hjoin : strings.Join (d :: ds) "\n---\n" ≠ "" := by
      intro hj
      have hdat := congrArg String.data hj
      simp only [strings.Join] at hdat
      cases ds with
      | nil =>
        rw [List.map_singleton, diff.intercalate_singleton] at hdat
        exact hd (String.ext hdat)
      | cons d2 ds2 =>
        rw [List.map_cons, List.map_cons, diff.intercalate_cons_cons] at hdat
        simp at hdat
    have hsep : ¬ ("---" : String).data = [] := by decide
    unfold separateManifests
    rw [if_neg hjoin]
    unfold strings.Split
    rw [if_neg hsep]
    have hrt := separateLoop_split_join ds d [] [] (by simp) h
    simpa [strings.Join] using hrt

/-! ## Algebra of `mergeMaps` -/

/-- The second loop of `mergeMaps` adds the entries of `override` as they are when none
of its keys is in `result` yet. -/
theorem mergeLoop_eq_append (override : Map) :
    ∀ result : Map, (keys override).Nodup → (∀ k ∈ keys override, k ∉ keys result) →
      mergeLoop result override = result ++ override := by
  induction override with
  | nil => intro result _ _; rw [mergeLoop]; simp
  | cons e rest ih =>
    intro result hnd hdisj
    obtain ⟨k1, v1⟩ := e
    have hnd2 := List.nodup_cons.mp hnd
    have hk1 : k1 ∉ keys result := hdisj k1 (by simp [keys])
    have hget : mapGet result k1 = none := (mapGet_eq_none_iff result k1).mpr hk1
    have hentry : mergeEntry (mapGet result k1) v1 = v1 := by
      rw [hget]
      apply mergeEntry_of_not_both
      rintro ⟨_, _, h1, _⟩
      cases h1
    rw [mergeLoop_cons, hentry, mapSet_of_not_mem result k1 v1 hk1,
      ih (result ++ [(k1, v1)]) hnd2.2]
    · simp
    · intro k hk hmem
      simp only [keys, List.map_append, List.map_cons, List.map_nil, List.mem_append,
        List.mem_singleton] at hmem
      rcases hmem with h1 | h1
      · exact hdisj k (by simp only [keys] at hk; simp [keys, hk]) (by simpa [keys] using h1)
      · exact hnd2.1 (h1 ▸ hk)

/-- C25: the empty map is a two-sided identity of `mergeMaps`.  For every map `m` (holding
each key once, as Go maps do) `mergeMaps(m, {})` and `mergeMaps({}, m)` are both `m`; so
`mergeValues` with one values file that decodes to `m` and no inline values returns
exactly `m`. -/
theorem mergeMaps_empty (m : Map) (h : (keys m).Nodup) :
    mergeMaps m [] = m ∧ mergeMaps [] m = m ∧
    ∀ (Chart : Type) (env : Env Chart) (opts : RenderOptions) (file : String),
      opts.ValuesFiles = [file] → opts.Values = none →
      loadValuesFile env file = (m, none) → mergeValues env opts = (m, none) := by
  have hleft : mergeMaps m [] = m := by
    unfold mergeMaps
    rw [copyLoop_nil m h, mergeLoop]
  have hright : mergeMaps [] m = m := by
    unfold mergeMaps
    rw [copyLoop, mergeLoop_eq_append m [] h (by simp [keys])]
    rfl
  refine ⟨hleft, hright, ?_⟩
  intro Chart env opts file hfiles hvalues hload
  simp only [mergeValues, hfiles, valuesFilesLoop, hload, hvalues, hright]

/-- Witness of C25: a map with a nested map. -/
theorem mergeMaps_empty_witness :
    mergeMaps [("replicaCount", Value.other "2"),
        ("image", Value.map [("tag", Value.other "dev")])] [] =
      [("replicaCount", Value.other "2"), ("image", Value.map [("tag", Value.other "dev")])] ∧
    mergeMaps [] [("replicaCount", Value.other "2"),
        ("image", Value.map [("tag", Value.other "dev")])] =
      [("replicaCount", Value.other "2"), ("image", Value.map [("tag", Value.other "dev")])] :=
  have h := mergeMaps_empty
    [("replicaCount", Value.other "2"), ("image", Value.map [("tag", Value.other "dev")])]
    (by decide)
  ⟨h.1, h.2.1⟩

/-- C26: `mergeMaps` is not associative.  For `a = {k: {x: 1}}`, `b = {k: 5}` and
`c = {k: {y: 2}}` the map `mergeMaps(mergeMaps(a, b), c)` holds `{y: 2}` under `k` and
nothing at the path `k.x`, while `mergeMaps(a, mergeMaps(b, c))` holds `1` at `k.x`;
`mergeValues` on the files `a`, `b` and the inline values `c` folds from the left and
returns the first of the two. -/
theorem mergeMaps_not_associative :
    ∃ a b c : Map,
      entriesWellFormed a = true ∧ entriesWellFormed b = true ∧ entriesWellFormed c = true ∧
      mergeMaps (mergeMaps a b) c ≠ mergeMaps a (mergeMaps b c) ∧
      getPath (mergeMaps (mergeMaps a b) c) ["k", "x"] = none ∧
      getPath (mergeMaps a (mergeMaps b c)) ["k", "x"] = some (Value.other "1") ∧
      mergeValues (filesEnv [("a.yaml", a), ("b.yaml", b)])
        { ChartPath := "chart", ValuesFiles := ["a.yaml", "b.yaml"], Values := some c,
          Namespace := "default", ReleaseName := "release" } =
        (mergeMaps (mergeMaps a b) c, none) :=
  ⟨[("k", Value.map [("x", Value.other "1")])], [("k", Value.other "5")],
    [("k", Value.map [("y", Value.other "2")])],
    by decide, by decide, by decide, by decide, by decide, by decide, by decide⟩

end helmrender
